import Mathlib

/-!
Verification development for the kobject runtime data-model engine.

The Python sources are shallowly embedded:

* `Ty` models the runtime type annotations that drive validation,
  decoding, encoding and schema generation (`typing.Union` subscriptions,
  parameterized and bare containers, primitive classes, `Kobject`
  subclasses, `Any`, `Ellipsis`).
* `Value` models the Python runtime values the engine manipulates
  (JSON-shaped data plus `Kobject` instances).  Floats, sets and enums are
  not modelled; no claim depends on them.
* The functions below each mirror one Python function of the repository
  (file and name given in their doc comments).
-/

namespace Kobject

/-- Single-quote character, used when building Python `repr` strings. -/
def sq : String := String.singleton (Char.ofNat 39)

/-- Model of a runtime type annotation.

`tNone`/`tBool`/`tInt`/`tStr` are the primitive classes (`NoneType`,
`bool`, `int`, `str`); `tListBare`/`tTupleBare`/`tDictBare` are the bare
builtin container classes `list`/`tuple`/`dict` (no `__args__`);
`tList`/`tTuple`/`tDict` are the subscripted generic aliases carrying
`__args__`; `tUnion` is a subscripted `typing.Union[...]` (hence also
`typing.Optional[T]`); `tUnionSF` is the unsubscripted `typing.Union`
special form (what `__origin__` of a subscripted union is); `tAny` is
`typing.Any`; `tEllipsis` is the `...` object; `tKobject` is the
`Kobject` base class; `tRec n` is a declared `Kobject` subclass named
`n`; `tClass n` is any other plain class (e.g. `datetime`). -/
inductive Ty where
  | tNone : Ty
  | tBool : Ty
  | tInt : Ty
  | tStr : Ty
  | tAny : Ty
  | tEllipsis : Ty
  | tKobject : Ty
  | tUnionSF : Ty
  | tListBare : Ty
  | tTupleBare : Ty
  | tDictBare : Ty
  | tRec (name : String) : Ty
  | tClass (name : String) : Ty
  | tList (args : List Ty) : Ty
  | tTuple (args : List Ty) : Ty
  | tDict (key value : Ty) : Ty
  | tUnion (args : List Ty) : Ty

open Ty

mutual

/-- Structural (identity-like) equality of annotations, used where the
Python source compares types with `is`, `==` or `in`-membership. -/
def tyBeq : Ty → Ty → Bool
  | tNone, tNone => true
  | tBool, tBool => true
  | tInt, tInt => true
  | tStr, tStr => true
  | tAny, tAny => true
  | tEllipsis, tEllipsis => true
  | tKobject, tKobject => true
  | tUnionSF, tUnionSF => true
  | tListBare, tListBare => true
  | tTupleBare, tTupleBare => true
  | tDictBare, tDictBare => true
  | tRec a, tRec b => a == b
  | tClass a, tClass b => a == b
  | tList a, tList b => tyListBeq a b
  | tTuple a, tTuple b => tyListBeq a b
  | tDict k v, tDict k2 v2 => tyBeq k k2 && tyBeq v v2
  | tUnion a, tUnion b => tyListBeq a b
  | _, _ => false

/-- Pointwise equality of annotation lists. -/
def tyListBeq : List Ty → List Ty → Bool
  | [], [] => true
  | a :: as2, b :: bs => tyBeq a b && tyListBeq as2 bs
  | _, _ => false

end

instance : BEq Ty := ⟨tyBeq⟩

/-- Model of a Python runtime value.

`VInst cname fields` is a `Kobject` instance of class `cname` whose
attributes (in field-map order) are `fields`.  Dicts are association
lists in insertion order, as Python dicts are. -/
inductive Value where
  | VNone : Value
  | VBool (b : Bool) : Value
  | VInt (n : Int) : Value
  | VStr (s : String) : Value
  | VList (items : List Value) : Value
  | VTuple (items : List Value) : Value
  | VDict (pairs : List (Value × Value)) : Value
  | VInst (cname : String) (fields : List (String × Value)) : Value

open Value

mutual

/-- Python `==` on modelled values.  Mirrors CPython semantics on the
modelled fragment: `bool` compares numerically equal to `int`
(`True == 1`), lists never equal tuples, dicts compare as equal-length
mappings whose pairs all occur in the other (CPython checks the length
and one direction), and `Kobject` dataclass instances compare by class
and field values. -/
def pyEq : Value → Value → Bool
  | VNone, VNone => true
  | VBool a, VBool b => a == b
  | VBool a, VInt n => (if a then (1 : Int) else 0) == n
  | VInt n, VBool b => n == (if b then (1 : Int) else 0)
  | VInt a, VInt b => a == b
  | VStr a, VStr b => a == b
  | VList a, VList b => pyEqItems a b
  | VTuple a, VTuple b => pyEqItems a b
  | VDict a, VDict b => a.length == b.length && pyEqPairsSub a b
  | VInst n fs, VInst m gs => n == m && pyEqFields fs gs
  | _, _ => false
termination_by structural a b => a

/-- Elementwise Python `==` on sequences (lengths must agree). -/
def pyEqItems : List Value → List Value → Bool
  | [], [] => true
  | a :: as2, b :: bs => pyEq a b && pyEqItems as2 bs
  | _, _ => false
termination_by structural a b => a

/-- Every pair of the first dict has a `==`-matching pair in the
second. -/
def pyEqPairsSub : List (Value × Value) → List (Value × Value) → Bool
  | [], _ => true
  | (k, v) :: rest, b =>
      (b.any fun q => pyEq k q.1 && pyEq v q.2) && pyEqPairsSub rest b
termination_by structural a b => a

/-- Ordered fieldwise Python `==` on instance attribute maps
(dataclass equality compares the field tuples in declaration order). -/
def pyEqFields : List (String × Value) → List (String × Value) → Bool
  | [], [] => true
  | (a, v) :: fs, (b, w) :: gs => a == b && pyEq v w && pyEqFields fs gs
  | _, _ => false
termination_by structural a b => a

end

/-- Comma-space join, as Python uses when rendering containers. -/
def commaSep (parts : List String) : String := String.intercalate ", " parts

mutual

/-- Python `repr` on modelled values (used for the `value` component of
structured validation errors, `core.py` line 78). -/
def pyRepr : Value → String
  | VNone => "None"
  | VBool true => "True"
  | VBool false => "False"
  | VInt n => toString n
  | VStr s => sq ++ s ++ sq
  | VList xs => "[" ++ commaSep (pyReprItems xs) ++ "]"
  | VTuple [x] => "(" ++ pyRepr x ++ ",)"
  | VTuple xs => "(" ++ commaSep (pyReprItems xs) ++ ")"
  | VDict ps => "\x7b" ++ commaSep (pyReprPairs ps) ++ "\x7d"
  | VInst n fs => "<" ++ n ++ " (" ++ commaSep (pyStrFields fs) ++ ")>"
termination_by structural v => v

/-- `repr` of each element of a sequence. -/
def pyReprItems : List Value → List String
  | [] => []
  | x :: xs => pyRepr x :: pyReprItems xs
termination_by structural xs => xs

/-- `repr` of each `key: value` pair of a dict. -/
def pyReprPairs : List (Value × Value) → List String
  | [] => []
  | (k, v) :: ps => (pyRepr k ++ ": " ++ pyRepr v) :: pyReprPairs ps
termination_by structural ps => ps

/-- The `name=str(value)` parts of `Kobject.__repr__` (`core.py` 191):
Python `str` is `repr` on everything except strings themselves. -/
def pyStrFields : List (String × Value) → List String
  | [] => []
  | (n, v) :: fs =>
      (n ++ "=" ++ (match v with | VStr s => s | w => pyRepr w)) ::
        pyStrFields fs
termination_by structural fs => fs

end

/-- Python `str` on modelled values: like `repr` except on strings. -/
def pyStr : Value → String
  | VStr s => s
  | v => pyRepr v

/-- `fields.FieldMeta` (fields.py 13-36): one declared constructor
parameter.  `ann` models the `annotation` attribute; `default = none`
models the `inspect.Parameter.empty` sentinel (no declared default), so
`required = default.isNone` and `have_default_value = default.isSome`,
exactly as `FieldMeta.new_one` computes them. -/
structure FieldMeta where
  name : String
  ann : Ty
  required : Bool
  have_default_value : Bool
  default : Option Value

/-- `FieldMeta.get_generic_field_meta` / `_any_one` (fields.py 38-57):
the synthetic anonymous field used when validating container elements
and union alternatives (name `""`, required, no default). -/
def genericMeta (t : Ty) : FieldMeta :=
  ⟨"", t, true, false, none⟩

/-- The `value == field.default` test of `_validate_field_value`
(validation.py 82): comparing against the `EMPTY` sentinel is always
false for modelled runtime values. -/
def matchesDefault (v : Value) : Option Value → Bool
  | none => false
  | some d => pyEq v d

/-- `_compat.is_generic_alias` (_compat.py 12-14): the annotation has an
`__origin__` attribute, i.e. it is a subscripted generic (including
subscripted `typing.Union`). -/
def isGenericAlias : Ty → Bool
  | tList _ | tTuple _ | tDict _ _ | tUnion _ => true
  | _ => false

/-- `_compat.is_special_form_union` (_compat.py 17-20):
`typing.get_origin(annotation) is typing.Union`. -/
def isSpecialFormUnion : Ty → Bool
  | tUnion _ => true
  | _ => false

/-- The `__origin__` attribute of a subscripted generic (identity on
everything else, mirroring `JSONDecoder.get_base_type`,
serialization.py 38-45: `typing.Union[...]`'s origin is the
`typing.Union` special form). -/
def tyOrigin : Ty → Ty
  | tList _ => tListBare
  | tTuple _ => tTupleBare
  | tDict _ _ => tDictBare
  | tUnion _ => tUnionSF
  | t => t

/-- The `__args__` tuple of a subscripted generic (empty for
non-subscripted annotations, mirroring `typing.get_args`). -/
def tyArgs : Ty → List Ty
  | tList args => args
  | tTuple args => args
  | tDict k v => [k, v]
  | tUnion args => args
  | _ => []

/-- Python `isinstance(v, t)` for the modelled class annotations.
`bool` is a subclass of `int`, every `Kobject` subclass instance is an
instance of `Kobject`.  Subscripted generics and special forms are not
classes; `isinstance` against them raises in Python and is unreachable
in the modelled flows, so they map to `false`.  No opaque `tClass`
values are modelled. -/
def isinstanceOf (v : Value) : Ty → Bool
  | tNone => (v matches VNone)
  | tBool => (v matches VBool _)
  | tInt => (v matches VBool _ | VInt _)
  | tStr => (v matches VStr _)
  | tListBare => (v matches VList _)
  | tTupleBare => (v matches VTuple _)
  | tDictBare => (v matches VDict _)
  | tKobject => (v matches VInst _ _)
  | tRec n => match v with
    | VInst m _ => m == n
    | _ => false
  | _ => false

mutual

/-- Body of `_validate_field_value` (validation.py 80-113) as a
function of the value, the field annotation and the field default (the
only `FieldMeta` components the function and its helpers read).  The
container branches carry the loops of the source helpers inline:
`_validate_dict` (validation.py 26-38) — every key must validate
against the key descriptor and every value against the value
descriptor, failing at the first bad pair; `_validate_list`
(validation.py 62-77) — every element must validate against at least
one of `__args__`, failing at the first element matching none;
`_validate_tuple` (validation.py 41-59) — the length must equal the
arity and then each element must validate against at least one of
`__args__` (the same membership rule as lists, not a positional
check).  `List.all`/`List.any` short-circuit exactly as the source
loops do. -/
def validateCore (v : Value) (ann : Ty) (dflt : Option Value) : Bool :=
  if matchesDefault v dflt || (ann == tEllipsis || ann == tAny) then
    true
  else if isGenericAlias ann = false then
    isinstanceOf v ann
  else if isSpecialFormUnion ann then
    match ann with
    | tUnion args => validateAnyOf v args
    | _ => false
  else if isinstanceOf v (tyOrigin ann) = false then
    false
  else
    match ann, v with
    | tDict k w, VDict ps =>
        ps.all fun p => validateCore p.1 k none && validateCore p.2 w none
    | tList args, VList xs => xs.all fun x => validateAnyOf x args
    | tTuple args, VTuple xs =>
        if args.length == xs.length then xs.all fun x => validateAnyOf x args
        else false
    | _, _ => true
termination_by structural ann

/-- `_validate_special_form` (validation.py 11-23): the value is valid
iff some union alternative validates it (first success wins); each
alternative is checked through `get_generic_field_meta` (anonymous,
required, no default).  Also the inner loop of `_validate_list` and
`_validate_tuple`. -/
def validateAnyOf (v : Value) : List Ty → Bool
  | [] => false
  | t :: ts => validateCore v t none || validateAnyOf v ts
termination_by structural ts => ts

end

/-- `_validate_field_value` (validation.py 80-113): validate one value
against one declared field. -/
def validateFieldValue (v : Value) (f : FieldMeta) : Bool :=
  validateCore v f.ann f.default

/-- `inspect.isclass` on modelled annotations: true exactly for the
class objects (primitives, bare containers, `Kobject` and its
subclasses, plain classes), false for special forms, `Any`, `...` and
subscripted generics. -/
def isClassTy : Ty → Bool
  | tNone | tBool | tInt | tStr => true
  | tListBare | tTupleBare | tDictBare => true
  | tKobject | tRec _ | tClass _ => true
  | _ => false

/-- Python `issubclass` on modelled classes: reflexive on classes, with
`bool` a subclass of `int` and every `Kobject` subclass a subclass of
`Kobject`.  False when either side is not a class. -/
def subclassOf (a b : Ty) : Bool :=
  if isClassTy a = false || isClassTy b = false then false
  else if a == b then true
  else match a, b with
    | tBool, tInt => true
    | tRec _, tKobject => true
    | _, _ => false

/-- `serialization.is_union` (serialization.py 13-15):
`get_origin(attr_type) is Union` (or a `types.UnionType`). -/
def isUnionTy : Ty → Bool
  | tUnion _ => true
  | _ => false

/-- `serialization._checker` (serialization.py 18-27) with a list of
reference classes (to model the `list | tuple | dict` reference): does
`attr_type`, or some member of a union `attr_type`, subclass one of the
reference classes? -/
def checkerMulti (attrType : Ty) (refs : List Ty) : Bool :=
  if isUnionTy attrType then
    (tyArgs attrType).any fun t => isClassTy t && refs.any fun r => subclassOf t r
  else
    isClassTy attrType && refs.any fun r => subclassOf attrType r

/-- `serialization._checker` with a single reference class. -/
def checker (attrType refType : Ty) : Bool :=
  checkerMulti attrType [refType]

/-- One entry of `JSONDecoder.types_resolver`: the registered matcher
class and the resolver callback (which receives the target type and the
raw value). -/
abbrev DecoderReg : Type := List (Ty × (Ty → Value → Value))

/-- `JSONDecoder.register_resolver` (serialization.py 47-51):
`types_resolver.insert(0, (attr_type, callback))` — the new entry goes
to the front of the ordered registry. -/
def registerResolver (attrType : Ty) (cb : Ty → Value → Value)
    (reg : DecoderReg) : DecoderReg :=
  (attrType, cb) :: reg

/-- `JSONDecoder.type_caster` (serialization.py 53-64): walk the
registry in order; at the first entry whose matcher `_checker`-matches
the annotation, call the resolver on the first union alternative that
subclasses the matcher, or on the full annotation when no alternative
does; if no entry matches, return the value unchanged. -/
def typeCaster (reg : DecoderReg) (attrType : Ty) (attrValue : Value) : Value :=
  match reg with
  | [] => attrValue
  | (m, r) :: rest =>
    if checker attrType m then
      match (tyArgs attrType).find? (fun t => subclassOf t m) with
      | some t => r t attrValue
      | none => r attrType attrValue
    else typeCaster rest attrType attrValue

/-- A Python exception escaping the modelled functions. -/
inductive PyErr where
  | missingContent (errors : List (String × Ty × String)) : PyErr
  | validationError (errors : List (String × Ty × String)) : PyErr
  | attributeError : PyErr
  | missingArgument (name : String) : PyErr
  | unexpectedArgument (name : String) : PyErr
  | typeError (msg : String) : PyErr

/-- `_resolve_list` (serialization.py 121-132): decode each element
with the first declared `__args__` alternative (the inner loop breaks
after the first, dropping the element when `__args__` is empty).  A
bare `list` annotation has no `__args__` attribute, so reading it
raises `AttributeError`. -/
def resolveList (reg : DecoderReg) (ann : Ty) (items : List Value) :
    Except PyErr Value :=
  match ann with
  | tList args =>
    match args.head? with
    | some t0 => .ok (VList (items.map fun x => typeCaster reg t0 x))
    | none => .ok (VList [])
  | _ => .error .attributeError

/-- `_resolve_tuple` (serialization.py 135-145): zip the raw sequence
against the declared `__args__` positionally (truncating at the
shorter, `strict=False`) and decode each position.  A bare `tuple`
annotation has no `__args__`, raising `AttributeError`. -/
def resolveTuple (reg : DecoderReg) (ann : Ty) (items : List Value) :
    Except PyErr Value :=
  match ann with
  | tTuple args =>
      .ok (VTuple ((items.zip args).map fun p => typeCaster reg p.2 p.1))
  | _ => .error .attributeError

/-- `_resolve_dict` (serialization.py 148-167): with no `__args__`
(bare `dict`) return the value unchanged; otherwise decode every key
with the key descriptor and every value with the value descriptor. -/
def resolveDict (reg : DecoderReg) (ann : Ty) (pairs : List (Value × Value)) :
    Value :=
  match ann with
  | tDict k w =>
      VDict (pairs.map fun p => (typeCaster reg k p.1, typeCaster reg w p.2))
  | _ => VDict pairs

/-- The per-present-field processing of `Kobject.from_dict` (core.py
267-294): after storing the raw value, skip decoding when it equals the
field default; otherwise dispatch on the annotation base type.  Returns
the value finally bound to the field name in `_dict_repr` (a raised
`AttributeError` aborts `from_dict`). -/
def castField (reg : DecoderReg) (f : FieldMeta) (w : Value) :
    Except PyErr Value :=
  if matchesDefault w f.default then .ok w
  else
    let baseType := tyOrigin f.ann
    if baseType == tNone && (w matches VNone) then .ok w
    else if checkerMulti baseType [tListBare, tTupleBare, tDictBare] = false then
      .ok (typeCaster reg f.ann w)
    else if checker baseType tListBare then
      match w with
      | VList items => resolveList reg f.ann items
      | _ => .ok w
    else if checker baseType tTupleBare then
      match w with
      | VList items => resolveTuple reg f.ann items
      | _ => .ok w
    else if checker baseType tDictBare then
      match w with
      | VDict pairs => .ok (resolveDict reg f.ann pairs)
      | _ => .ok w
    else .ok w

/-- `dict.get` on a string-keyed Python dict. -/
def lookupStr (d : List (String × Value)) (k : String) : Option Value :=
  match d with
  | [] => none
  | (a, v) :: rest => if a == k then some v else lookupStr rest k

/-- `k in d` on a string-keyed Python dict. -/
def containsStr (d : List (String × Value)) (k : String) : Bool :=
  match d with
  | [] => false
  | (a, _) :: rest => a == k || containsStr rest k

/-- `d[k] = v` on a string-keyed Python dict: replace the binding in
place when the key exists, else append it. -/
def updateAssoc (d : List (String × Value)) (k : String) (v : Value) :
    List (String × Value) :=
  match d with
  | [] => [(k, v)]
  | (a, w) :: rest =>
      if a == k then (a, v) :: rest else (a, w) :: updateAssoc rest k v

/-- `getattr(self, field.name)` on a modelled instance attribute map.
Instances built by the engine always carry every declared field, so the
`VNone` fallback is unreachable. -/
def getattrD (fields : List (String × Value)) (k : String) : Value :=
  (lookupStr fields k).getD VNone

/-- `Kobject.__validate_model` (core.py 69-99): validate every field of
the constructed instance in declaration order, collecting one
structured error `(field, annotation, repr(value))` per invalid field —
stopping after the first when `__lazy_type_check__` is set. -/
def validateModel (lazy : Bool) (fm : List FieldMeta)
    (fields : List (String × Value)) : List (String × Ty × String) :=
  match fm with
  | [] => []
  | f :: rest =>
    let v := getattrD fields f.name
    if validateFieldValue v f then validateModel lazy rest fields
    else
      (f.name, f.ann, pyRepr v) ::
        (if lazy then [] else validateModel lazy rest fields)

/-- The binding step of `cls(**kwargs)` for a dataclass: each declared
parameter takes the keyword value when present, else its declared
default; a missing required argument raises `TypeError`. -/
def buildArgs (fm : List FieldMeta) (kwargs : List (String × Value)) :
    Except PyErr (List (String × Value)) :=
  match fm with
  | [] => .ok []
  | f :: rest =>
    match lookupStr kwargs f.name with
    | some v => (buildArgs rest kwargs).map fun tl => (f.name, v) :: tl
    | none =>
      match f.default with
      | some d => (buildArgs rest kwargs).map fun tl => (f.name, d) :: tl
      | none => .error (.missingArgument f.name)

/-- `cls(**kwargs)` for a `Kobject` class (dataclass semantics):
keywords not naming a declared parameter raise `TypeError`; otherwise
the attributes are bound and `__post_init__` runs
`Kobject.__validate_model`, raising a single `TypeError` carrying the
structured error list when any field is invalid. -/
def mkInstance (lazy : Bool) (cname : String) (fm : List FieldMeta)
    (kwargs : List (String × Value)) : Except PyErr Value :=
  match kwargs.find? (fun p => (fm.find? (fun f => f.name == p.1)).isNone) with
  | some p => .error (.unexpectedArgument p.1)
  | none =>
    match buildArgs fm kwargs with
    | .error e => .error e
    | .ok fields =>
      match validateModel lazy fm fields with
      | [] => .ok (VInst cname fields)
      | errs => .error (.validationError errs)

/-- The mutable state of one `Kobject.from_dict` call (core.py
244-307): the input document `dict_repr` (read only through `.get` and
`in`), the freshly built keyword map `_dict_repr`, and the accumulated
`_missing` structured errors. -/
structure FDState where
  doc : List (String × Value)
  out : List (String × Value)
  missing : List (String × Ty × String)

/-- One iteration of the `from_dict` field loop (core.py 252-294):
absent with a default — skip; absent and required — record a missing
entry `(name, annotation, "Empty")` and continue; present — store the
raw value, then store the decoded value (`castField`), any raised
exception aborting the loop. -/
def fromDictStep (reg : DecoderReg) (f : FieldMeta) (s : FDState) :
    FDState × Option PyErr :=
  if !containsStr s.doc f.name && f.have_default_value then (s, none)
  else if !containsStr s.doc f.name then
    ({ s with missing := s.missing ++ [(f.name, f.ann, "Empty")] }, none)
  else
    match castField reg f ((lookupStr s.doc f.name).getD VNone) with
    | .ok v => ({ s with out := updateAssoc s.out f.name v }, none)
    | .error e =>
        ({ s with
            out := updateAssoc s.out f.name
              ((lookupStr s.doc f.name).getD VNone) }, some e)

/-- The `from_dict` field loop over the whole field map; a raised
exception stops the iteration. -/
def fromDictGo (reg : DecoderReg) (fm : List FieldMeta) (s : FDState) :
    FDState × Option PyErr :=
  match fm with
  | [] => (s, none)
  | f :: rest =>
    match fromDictStep reg f s with
    | (s2, none) => fromDictGo reg rest s2
    | (s2, some e) => (s2, some e)

/-- `Kobject.from_dict` (core.py 244-307), with the final document
state exposed: run the field loop; if any required field was absent,
raise one `TypeError` carrying all the missing-field entries; otherwise
construct and validate the instance from the accumulated keyword map. -/
def fromDictSt (reg : DecoderReg) (lazy : Bool) (cname : String)
    (fm : List FieldMeta) (doc : List (String × Value)) :
    Except PyErr Value × FDState :=
  match fromDictGo reg fm ⟨doc, [], []⟩ with
  | (s, some e) => (.error e, s)
  | (s, none) =>
    if s.missing.isEmpty then (mkInstance lazy cname fm s.out, s)
    else (.error (.missingContent s.missing), s)

/-- `Kobject.from_dict` (core.py 244-307): the returned instance or
raised exception. -/
def fromDict (reg : DecoderReg) (lazy : Bool) (cname : String)
    (fm : List FieldMeta) (doc : List (String × Value)) : Except PyErr Value :=
  (fromDictSt reg lazy cname fm doc).1

mutual

/-- The `resolve` closure of `Kobject._dict` (core.py 334-337) with the
default (empty) encoder registry: a nested `Kobject` instance becomes
its own `dict(remove_nones=...)`, every other value passes through
(`JSONEncoder.dict_default` / `default` return non-`Kobject` values
unchanged when no encoder resolver is registered). -/
def resolveVal (rn : Bool) : Value → Value
  | VInst _ fs => VDict ((dictFields rn fs).map fun p => (VStr p.1, p.2))
  | v => v
termination_by structural v => v

/-- The field loop of `Kobject._dict` (core.py 339-365) over the
instance attributes (the field map supplies exactly the stored
attribute names in order): skip `None`-valued fields when
`remove_nones`; encode list/tuple fields elementwise into a list, dict
fields pairwise, everything else through `resolve`. -/
def dictFields (rn : Bool) : List (String × Value) → List (String × Value)
  | [] => []
  | (n, v) :: rest =>
    if rn && (v matches VNone) then dictFields rn rest
    else (n, encOne rn v) :: dictFields rn rest
termination_by structural fs => fs

/-- Encoding of one attribute value inside `Kobject._dict`: list and
tuple values become elementwise-resolved lists, dict values are
resolved pairwise, and everything else goes through `resolve` (inlined
here: instances to their own `dict()`, scalars unchanged). -/
def encOne (rn : Bool) : Value → Value
  | VList xs => VList (encItems rn xs)
  | VTuple xs => VList (encItems rn xs)
  | VDict ps => VDict (encPairs rn ps)
  | VInst _ fs => VDict ((dictFields rn fs).map fun p => (VStr p.1, p.2))
  | v => v
termination_by structural v => v

/-- The list/tuple element loop of `Kobject._dict` (core.py 350-356):
skip `None` elements when `remove_nones`, `resolve` the rest. -/
def encItems (rn : Bool) : List Value → List Value
  | [] => []
  | x :: xs =>
    if rn && (x matches VNone) then encItems rn xs
    else resolveVal rn x :: encItems rn xs
termination_by structural xs => xs

/-- The dict pair loop of `Kobject._dict` (core.py 357-363): skip pairs
with a `None` value when `remove_nones`, `resolve` keys and values. -/
def encPairs (rn : Bool) : List (Value × Value) → List (Value × Value)
  | [] => []
  | (k, v) :: ps =>
    if rn && (v matches VNone) then encPairs rn ps
    else (resolveVal rn k, resolveVal rn v) :: encPairs rn ps
termination_by structural ps => ps

end

/-- `Kobject.dict` / `Kobject.to_dict` (core.py 309-319) with the
default (empty) encoder registry, on an instance carrying the given
attribute map. -/
def dictOf (rn : Bool) (fields : List (String × Value)) :
    List (String × Value) :=
  dictFields rn fields

/-- JSON rendering of a Python dict key as `json.dumps` does
(`str` keys verbatim; `int`/`bool`/`None` keys coerced to their JSON
text; other key types raise `TypeError`). -/
def jsonKey : Value → Option String
  | VStr s => some s
  | VInt n => some (toString n)
  | VBool true => some "true"
  | VBool false => some "false"
  | VNone => some "null"
  | _ => none

mutual

/-- Models `json.loads(json.dumps(v, default=JSONEncoder.default))`
with the default (empty) encoder registry, fused into one value
transformation: tuples serialize as arrays, dict keys are coerced to
strings, and `Kobject` instances serialize through their `dict()`
(whose per-field encoding composes with the serializer into the
fieldwise transformation below); `none` models a raised `TypeError`
(unserializable dict key). -/
def toJsonVal : Value → Option Value
  | VNone => some VNone
  | VBool b => some (VBool b)
  | VInt n => some (VInt n)
  | VStr s => some (VStr s)
  | VList xs => (toJsonItems xs).map VList
  | VTuple xs => (toJsonItems xs).map VList
  | VDict ps => (toJsonPairs ps).map VDict
  | VInst _ fs => (toJsonFields fs).map VDict
termination_by structural v => v

/-- Elementwise JSON round-trip of a sequence. -/
def toJsonItems : List Value → Option (List Value)
  | [] => some []
  | x :: xs =>
    match toJsonVal x, toJsonItems xs with
    | some y, some ys => some (y :: ys)
    | _, _ => none
termination_by structural xs => xs

/-- Pairwise JSON round-trip of a dict (keys coerced to strings). -/
def toJsonPairs : List (Value × Value) → Option (List (Value × Value))
  | [] => some []
  | (k, v) :: ps =>
    match jsonKey k, toJsonVal v, toJsonPairs ps with
    | some s, some w, some ws => some ((VStr s, w) :: ws)
    | _, _, _ => none
termination_by structural ps => ps

/-- Fieldwise JSON round-trip of an instance attribute map. -/
def toJsonFields : List (String × Value) → Option (List (Value × Value))
  | [] => some []
  | (n, v) :: fs =>
    match toJsonVal v, toJsonFields fs with
    | some w, some ws => some ((VStr n, w) :: ws)
    | _, _ => none
termination_by structural fs => fs

end

/-- Models `json.loads(self.to_json())` (core.py 321-329) for an
instance with the given attribute map and the default (empty) encoder
registry: the document whose keys are the field names and whose values
are the JSON round-trips of the attribute values. -/
def toJsonDoc : List (String × Value) → Option (List (String × Value))
  | [] => some []
  | (n, v) :: fs =>
    match toJsonVal v, toJsonDoc fs with
    | some w, some ws => some ((n, w) :: ws)
    | _, _ => none

/-!  The legacy validator of `kobject/__init__.py` (the historical
`Kobject` the package root still exports), needed where claims cite
`Kobject.__check_and_update_error_list`. -/

/-- What `Kobject.__get_attribute_type` (`__init__.py` 34-47) returns:
either one type object, or the tuple `annotation.__args__` when the
origin-stripped annotation is the `typing.Union` special form. -/
inductive AttrType where
  | single (t : Ty) : AttrType
  | multi (ts : List Ty) : AttrType

/-- `Kobject.__get_attribute_type` (`__init__.py` 34-47): strip one
`__origin__` level; if that leaves the `typing.Union` special form,
return the annotation's `__args__` tuple instead. -/
def getAttributeTypeOld (ann : Ty) : AttrType :=
  let t := tyOrigin ann
  if t == tUnionSF then .multi (tyArgs ann) else .single t

/-- Rendering of a class object in legacy error messages
(`str(dict)` is `<class 'dict'>` and so on). -/
def tyPyName : Ty → String
  | tNone => "<class " ++ sq ++ "NoneType" ++ sq ++ ">"
  | tBool => "<class " ++ sq ++ "bool" ++ sq ++ ">"
  | tInt => "<class " ++ sq ++ "int" ++ sq ++ ">"
  | tStr => "<class " ++ sq ++ "str" ++ sq ++ ">"
  | tListBare => "<class " ++ sq ++ "list" ++ sq ++ ">"
  | tTupleBare => "<class " ++ sq ++ "tuple" ++ sq ++ ">"
  | tDictBare => "<class " ++ sq ++ "dict" ++ sq ++ ">"
  | tKobject => "<class " ++ sq ++ "Kobject" ++ sq ++ ">"
  | tRec n => "<class " ++ sq ++ n ++ sq ++ ">"
  | tClass n => "<class " ++ sq ++ n ++ sq ++ ">"
  | tAny => "typing.Any"
  | tEllipsis => "Ellipsis"
  | tUnionSF => "typing.Union"
  | tList _ => "list[...]"
  | tTuple _ => "tuple[...]"
  | tDict _ _ => "dict[...]"
  | tUnion _ => "typing.Union[...]"

/-- Rendering of an `AttrType` in legacy error messages (a tuple of
types renders as Python renders tuples). -/
def attrTypeStr : AttrType → String
  | .single t => tyPyName t
  | .multi [t] => "(" ++ tyPyName t ++ ",)"
  | .multi ts => "(" ++ commaSep (ts.map tyPyName) ++ ")"

/-- `type(value)` rendered as in legacy error messages. -/
def typeOfStr : Value → String
  | VNone => tyPyName tNone
  | VBool _ => tyPyName tBool
  | VInt _ => tyPyName tInt
  | VStr _ => tyPyName tStr
  | VList _ => tyPyName tListBare
  | VTuple _ => tyPyName tTupleBare
  | VDict _ => tyPyName tDictBare
  | VInst n _ => tyPyName (tRec n)

/-- The distinct legacy rejection message for dict-typed attributes
(`__init__.py` 107): `Invalid type! The attribute '<attr>' is a
<class 'dict'>`. -/
def invalidDictMessage (attr : String) : String :=
  "Invalid type! The attribute " ++ sq ++ attr ++ sq ++ " is a " ++
    tyPyName tDictBare

/-- The ordinary legacy type-mismatch message (`__init__.py` 121-123),
with the optional ` on index <i>` suffix. -/
def wrongTypeMessage (attrType : AttrType) (v : Value) (index : Option Nat) :
    String :=
  "Wrong type! Expected " ++ attrTypeStr attrType ++ " but giving " ++
    typeOfStr v ++
    (match index with
     | some i => " on index " ++ toString i
     | none => "")

/-- `Kobject.__save_errors` (`__init__.py` 88-92): append the message
to the attribute's message list, creating the list first when absent. -/
def saveErrors (errors : List (String × List String)) (attr msg : String) :
    List (String × List String) :=
  let errors2 :=
    if errors.any (fun p => p.1 == attr) then errors else errors ++ [(attr, [])]
  errors2.map fun p => if p.1 == attr then (p.1, p.2 ++ [msg]) else p

/-- Python `isinstance` against an `AttrType` (a tuple of classes
matches any member). -/
def isinstanceAttr (v : Value) : AttrType → Bool
  | .single t => isinstanceOf v t
  | .multi ts => ts.any (isinstanceOf v)

/-- `Kobject.__check_and_update_error_list` (`__init__.py` 94-124):
a dict-typed attribute (the stripped type is `dict`/`Dict`, or a union
alternative is) is rejected unconditionally with the distinct message,
before the default-value and `isinstance` checks; otherwise a value
equal to the declared default passes, and anything failing `isinstance`
gets the ordinary mismatch message.  The `typing.Callable` and
`typing.Coroutine` special cases concern annotations outside the
modelled fragment and are always false here. -/
def checkAndUpdateErrorList (attrValue : Value) (attrType : AttrType)
    (errors : List (String × List String)) (attr : String)
    (index : Option Nat) (defaultVal : Option Value) :
    List (String × List String) :=
  let isADict := match attrType with
    | .single t => t == tDictBare
    | _ => false
  let hasDictOnTypes := match attrType with
    | .multi ts => ts.any (fun t => t == tDictBare)
    | _ => false
  if isADict || hasDictOnTypes then
    saveErrors errors attr (invalidDictMessage attr)
  else if matchesDefault attrValue defaultVal then errors
  else if !isinstanceAttr attrValue attrType then
    saveErrors errors attr (wrongTypeMessage attrType attrValue index)
  else errors

/-!  The JSON Schema generator (`schema.py`).  Classes are modelled
without docstrings, so the `parse_docstring` metadata is empty and the
title/description/examples/field-description attachments of the source
are no-ops. -/

/-- A JSON Schema node (a JSON value: the generator builds plain
dicts/lists/strings/numbers/bools). -/
inductive JSch where
  | jnull : JSch
  | jbool (b : Bool) : JSch
  | jnum (n : Int) : JSch
  | jstr (s : String) : JSch
  | jarr (items : List JSch) : JSch
  | jobj (fields : List (String × JSch)) : JSch

open JSch

/-- A declared set of `Kobject` classes: class name to field map. -/
abbrev Env : Type := List (String × List FieldMeta)

/-- Class lookup in the declared environment. -/
def envLookup (env : Env) (cname : String) : Option (List FieldMeta) :=
  match env with
  | [] => none
  | (n, fm) :: rest => if n == cname then some fm else envLookup rest cname

/-- `JSONSchemaGenerator.schema_resolvers`: matcher class and callback. -/
abbrev SchemaReg : Type := List (Ty × (Ty → JSch))

/-- `defs[class_name] = nested_schema` on the string-keyed `$defs`
dict: replace in place or append. -/
def insertAssocJ (d : List (String × JSch)) (k : String) (v : JSch) :
    List (String × JSch) :=
  match d with
  | [] => [(k, v)]
  | (a, w) :: rest =>
      if a == k then (a, v) :: rest else (a, w) :: insertAssocJ rest k v

/-- `prop_schema["default"] = default_val` on a schema node. -/
def jobjInsert (sch : JSch) (k : String) (v : JSch) : JSch :=
  match sch with
  | jobj fields => jobj (insertAssocJ fields k v)
  | s => s

/-- The `isinstance(default_val, str | int | float | bool | type(None)
| list | dict)` guard of schema default attachment (schema.py
352-354): tuples and instances are excluded. -/
def defaultJsonable : Value → Bool
  | VTuple _ => false
  | VInst _ _ => false
  | _ => true

mutual

/-- A Python default value embedded into a schema document. -/
def valueToJSch : Value → JSch
  | VNone => jnull
  | VBool b => jbool b
  | VInt n => jnum n
  | VStr s => jstr s
  | VList xs => jarr (valuesToJSch xs)
  | VTuple xs => jarr (valuesToJSch xs)
  | VDict ps => jobj (valuePairsToJSch ps)
  | VInst _ fs => jobj (fs.map fun p => (p.1, jstr (pyRepr p.2)))

/-- Elementwise embedding of a sequence default. -/
def valuesToJSch : List Value → List JSch
  | [] => []
  | x :: xs => valueToJSch x :: valuesToJSch xs

/-- Pairwise embedding of a dict default (keys via `str`). -/
def valuePairsToJSch : List (Value × Value) → List (String × JSch)
  | [] => []
  | (k, v) :: ps => (pyStr k, valueToJSch v) :: valuePairsToJSch ps

end

/-- The mutable state threaded through schema generation: the shared
`defs` side table and the `processed` cycle-guard set. -/
structure GenState where
  defs : List (String × JSch)
  processed : List String

/-- The `$ref` node returned for every `Kobject`-subclass occurrence
(schema.py 262). -/
def refSchema (cname : String) : JSch :=
  jobj [("$ref", jstr ("#/$defs/" ++ cname))]

/-- The two resolver passes of `get_schema_for_type` (schema.py
204-212): exact type match first, then subclass match. -/
def resolverLookup (sreg : SchemaReg) (t : Ty) : Option JSch :=
  match sreg.find? (fun p => p.1 == t) with
  | some p => some (p.2 t)
  | none =>
    match sreg.find? (fun p => subclassOf t p.1) with
    | some p => some (p.2 t)
    | none => none

mutual

/-- `JSONSchemaGenerator.get_schema_for_type` (schema.py 183-320),
fuel-indexed (`none` = out of fuel; the sufficiency lemmas below show a
fuel of `1 + size` never runs out, which is the termination of the
Python recursion).  Dispatch order follows the source: custom
resolvers for classes, `None`, primitives, bare containers, `Any`,
`Kobject` subclasses (with the `processed` cycle guard: an already
processed class yields only a `$ref`; an unprocessed one is marked
processed, expanded into `defs` and then referenced), unions
(`Optional` with a single inner type as `anyOf[inner, null]`), and the
parameterized containers.  Enums and floats are outside the modelled
annotation fragment. -/
def getSchemaForType (env : Env) (sreg : SchemaReg) :
    Nat → Ty → GenState → Option (JSch × GenState)
  | 0, _, _ => none
  | Nat.succ fuel, t, st =>
    match if isClassTy t then resolverLookup sreg t else none with
    | some sch => some (sch, st)
    | none =>
      if t == tNone then some (jobj [("type", jstr "null")], st)
      else if t == tStr then some (jobj [("type", jstr "string")], st)
      else if t == tInt then some (jobj [("type", jstr "integer")], st)
      else if t == tBool then some (jobj [("type", jstr "boolean")], st)
      else if t == tListBare then some (jobj [("type", jstr "array")], st)
      else if t == tDictBare then some (jobj [("type", jstr "object")], st)
      else if t == tTupleBare then some (jobj [("type", jstr "array")], st)
      else if t == tAny then some (jobj [], st)
      else
        match t with
        | tRec n =>
          if st.processed.contains n then some (refSchema n, st)
          else
            match generateObjectSchema env sreg fuel n
                ⟨st.defs, st.processed ++ [n]⟩ with
            | none => none
            | some (nested, st2) =>
                some (refSchema n, ⟨insertAssocJ st2.defs n nested, st2.processed⟩)
        | tUnion args =>
          if (args.filter fun a => !(a == tNone)).length == args.length ||
              !((args.filter fun a => !(a == tNone)).length == 1) then
            match schemaList env sreg fuel args st with
            | none => none
            | some (schemas, st2) =>
                some (jobj [("anyOf", jarr schemas)], st2)
          else
            match args.filter fun a => !(a == tNone) with
            | [inner] =>
              match getSchemaForType env sreg fuel inner st with
              | none => none
              | some (innerSch, st2) =>
                  some
                    (jobj
                      [("anyOf",
                        jarr [innerSch, jobj [("type", jstr "null")]])], st2)
            | _ => none
        | tList args =>
          match args with
          | [] => some (jobj [("type", jstr "array")], st)
          | a :: _ =>
            match getSchemaForType env sreg fuel a st with
            | none => none
            | some (items, st2) =>
                some (jobj [("type", jstr "array"), ("items", items)], st2)
        | tTuple args =>
          match args with
          | [] => some (jobj [("type", jstr "array")], st)
          | a :: rest =>
            if rest.length == 1 && (rest.headD tNone == tEllipsis) then
              match getSchemaForType env sreg fuel a st with
              | none => none
              | some (items, st2) =>
                  some (jobj [("type", jstr "array"), ("items", items)], st2)
            else
              match schemaList env sreg fuel args st with
              | none => none
              | some (schemas, st2) =>
                  some
                    (jobj
                      [("type", jstr "array"), ("prefixItems", jarr schemas),
                       ("minItems", jnum (Int.ofNat args.length)),
                       ("maxItems", jnum (Int.ofNat args.length))], st2)
        | tDict _ w =>
          match getSchemaForType env sreg fuel w st with
          | none => none
          | some (valueSch, st2) =>
              some
                (jobj
                  [("type", jstr "object"),
                   ("additionalProperties", valueSch)], st2)
        | _ => some (jobj [], st)
termination_by structural fuel t st => fuel

/-- The `[cls.get_schema_for_type(t, defs, processed) for t in args]`
comprehensions of `get_schema_for_type`, threading the state. -/
def schemaList (env : Env) (sreg : SchemaReg) :
    Nat → List Ty → GenState → Option (List JSch × GenState)
  | _, [], st => some ([], st)
  | 0, _ :: _, _ => none
  | Nat.succ fuel, t :: ts, st =>
    match getSchemaForType env sreg fuel t st with
    | none => none
    | some (sch, st1) =>
      match schemaList env sreg fuel ts st1 with
      | none => none
      | some (schs, st2) => some (sch :: schs, st2)
termination_by structural fuel ts st => fuel

/-- The shared field loop of `_generate_object_schema` (schema.py
341-359) and `generate` (schema.py 398-415) — the two loops are
line-for-line identical in the source (the docstring lookups are empty
for the modelled docstring-less classes): build the `properties` map,
attach JSON-compatible declared defaults, and collect the defaultless
field names as `required`. -/
def schemaFields (env : Env) (sreg : SchemaReg) :
    Nat → List FieldMeta → GenState →
    Option (List (String × JSch) × List String × GenState)
  | _, [], st => some ([], [], st)
  | 0, _ :: _, _ => none
  | Nat.succ fuel, f :: rest, st =>
    match getSchemaForType env sreg fuel f.ann st with
    | none => none
    | some (propSchema, st1) =>
      let propSchema2 :=
        if f.have_default_value then
          match f.default with
          | some d =>
              if defaultJsonable d then jobjInsert propSchema "default" (valueToJSch d)
              else propSchema
          | none => propSchema
        else propSchema
      match schemaFields env sreg fuel rest st1 with
      | none => none
      | some (props, reqs, st2) =>
          some ((f.name, propSchema2) :: props,
            (if f.have_default_value then reqs else f.name :: reqs), st2)
termination_by structural fuel fm st => fuel

/-- `JSONSchemaGenerator._generate_object_schema` (schema.py 322-370):
the object schema of a nested class (non-`Kobject` lookups give `{}`). -/
def generateObjectSchema (env : Env) (sreg : SchemaReg) :
    Nat → String → GenState → Option (JSch × GenState)
  | 0, _, _ => none
  | Nat.succ fuel, cname, st =>
    match envLookup env cname with
    | none => some (jobj [], st)
    | some fm =>
      match schemaFields env sreg fuel fm st with
      | none => none
      | some (props, reqs, st2) =>
        let base :=
          [("type", jstr "object"), ("properties", jobj props),
           ("additionalProperties", jbool false)]
        some
          (jobj (if reqs.isEmpty then base
                 else base ++ [("required", jarr (reqs.map jstr))]), st2)
termination_by structural fuel cname st => fuel

end

/-- `JSONSchemaGenerator.generate` (schema.py 372-446) with the final
generator state exposed: a non-`Kobject` argument raises `TypeError`;
otherwise `defs` starts empty and `processed` starts as `{klass}`
(which is why the root class itself is never entered into `$defs`),
the field loop runs, and `$defs` is attached only when non-empty. -/
def generateSt (env : Env) (sreg : SchemaReg) (fuel : Nat) (cname : String) :
    Option (Except PyErr (JSch × GenState)) :=
  match envLookup env cname with
  | none => some (.error (.typeError (cname ++ " is not a Kobject subclass")))
  | some fm =>
    match schemaFields env sreg fuel fm ⟨[], [cname]⟩ with
    | none => none
    | some (props, reqs, st) =>
      let base :=
        [("$schema", jstr "http://json-schema.org/draft-07/schema#"),
         ("type", jstr "object"), ("properties", jobj props),
         ("additionalProperties", jbool false)]
      let withReq :=
        if reqs.isEmpty then base
        else base ++ [("required", jarr (reqs.map jstr))]
      let final :=
        if st.defs.isEmpty then withReq
        else withReq ++ [("$defs", jobj st.defs)]
      some (.ok (jobj final, st))

/-- `JSONSchemaGenerator.generate` / `Kobject.json_schema`: the
returned schema document. -/
def generate (env : Env) (sreg : SchemaReg) (fuel : Nat) (cname : String) :
    Option (Except PyErr JSch) :=
  (generateSt env sreg fuel cname).map fun r => r.map Prod.fst

/-- Key lookup in a schema object node. -/
def schLookup (sch : JSch) (k : String) : Option JSch :=
  match sch with
  | jobj fields =>
    match fields.find? (fun p => p.1 == k) with
    | some p => some p.2
    | none => none
  | _ => none

/-!  General lemmas about the embedded functions. -/

/-- The union/alternative loop checks exactly that some alternative
validates the value through an anonymous defaultless field. -/
theorem validateAnyOf_eq_any (v : Value) (args : List Ty) :
    validateAnyOf v args = args.any fun t => validateCore v t none := by
  induction args with
  | nil => simp [validateAnyOf]
  | cons t ts ih => simp [validateAnyOf, List.any_cons, ih]

/-- `v == None` in Python holds exactly for `None` on the modelled
values. -/
theorem pyEq_vnone (v : Value) : pyEq v VNone = true ↔ v = VNone := by
  cases v <;> simp [pyEq]

mutual

/-- Type equality is reflexive (Python `t is t` / `t == t`). -/
theorem tyBeq_refl : (t : Ty) → tyBeq t t = true
  | tNone => rfl
  | tBool => rfl
  | tInt => rfl
  | tStr => rfl
  | tAny => rfl
  | tEllipsis => rfl
  | tKobject => rfl
  | tUnionSF => rfl
  | tListBare => rfl
  | tTupleBare => rfl
  | tDictBare => rfl
  | tRec a => beq_self_eq_true a
  | tClass a => beq_self_eq_true a
  | tList a => tyListBeq_refl a
  | tTuple a => tyListBeq_refl a
  | tDict k v => by
      show (tyBeq k k && tyBeq v v) = true
      rw [tyBeq_refl k, tyBeq_refl v]
      rfl
  | tUnion a => tyListBeq_refl a
termination_by structural t => t

/-- Type-list equality is reflexive. -/
theorem tyListBeq_refl : (ts : List Ty) → tyListBeq ts ts = true
  | [] => rfl
  | t :: ts => by
      show (tyBeq t t && tyListBeq ts ts) = true
      rw [tyBeq_refl t, tyListBeq_refl ts]
      rfl
termination_by structural ts => ts

end

/-- Classes are not unions (`is_union` is false on any class object). -/
theorem isUnionTy_of_class {t : Ty} (h : isClassTy t = true) :
    isUnionTy t = false := by
  cases t <;> simp_all [isClassTy, isUnionTy]

/-- Classes have no `__args__` (`typing.get_args` yields the empty
tuple on a plain class). -/
theorem tyArgs_of_class {t : Ty} (h : isClassTy t = true) :
    tyArgs t = [] := by
  cases t <;> simp_all [isClassTy, tyArgs]

/-- `issubclass` is reflexive on classes. -/
theorem subclassOf_refl {t : Ty} (h : isClassTy t = true) :
    subclassOf t t = true := by
  unfold subclassOf
  have hb : (t == t) = true := tyBeq_refl t
  simp [h, hb]

/-- A class `_checker`-matches itself as a registry reference. -/
theorem checker_self {t : Ty} (h : isClassTy t = true) :
    checker t t = true := by
  unfold checker checkerMulti
  simp [isUnionTy_of_class h, h, subclassOf_refl h]

/-- Claim C8 — `set_decoder_resolver(t, f)` with an entry for `t`
already present: the new entry is inserted at the front of the ordered
registry, `type_caster` thereafter uses `f` for every exact match on
the class `t` (last-registered wins), and the dispatch outcome for
every annotation that does not `_checker`-match `t` is unchanged (the
untouched tail keeps its prior relative order, so unrelated resolvers
stay effective). -/
theorem claim8_decoder_priority (reg : DecoderReg) (t : Ty)
    (f g : Ty → Value → Value) (hclass : isClassTy t = true)
    (hexists : (t, g) ∈ reg) :
    registerResolver t f reg = (t, f) :: reg ∧
    (∀ v, typeCaster (registerResolver t f reg) t v = f t v) ∧
    (∀ u v, checker u t = false →
      typeCaster (registerResolver t f reg) u v = typeCaster reg u v) := by
  refine ⟨rfl, ?_, ?_⟩
  · intro v
    simp [typeCaster, registerResolver, checker_self hclass,
      tyArgs_of_class hclass]
  · intro u v h
    simp [typeCaster, registerResolver, h]

/-- The previously registered resolver for the `datetime`-like class in
the C8 witness. -/
def dtOldResolver : Ty → Value → Value := fun _ v => v

/-- The newly registered resolver for the `datetime`-like class in the
C8 witness. -/
def dtNewResolver : Ty → Value → Value := fun _ _ => VStr "parsed"

/-- An unrelated `int` resolver for the C8 witness. -/
def intResolver : Ty → Value → Value := fun _ v => v

/-- A registry that already holds a `datetime` entry and an unrelated
`int` entry. -/
def cReg8 : DecoderReg := [(tClass "datetime", dtOldResolver), (tInt, intResolver)]

/-- Witness for C8 at a concrete registry: re-registering a `datetime`
resolver puts it in front, exact `datetime` dispatch now uses it, and
`int` dispatch is unchanged. -/
theorem claim8_decoder_priority_witness :
    registerResolver (tClass "datetime") dtNewResolver cReg8 =
        (tClass "datetime", dtNewResolver) :: cReg8 ∧
    typeCaster (registerResolver (tClass "datetime") dtNewResolver cReg8)
        (tClass "datetime") (VStr "x") =
      dtNewResolver (tClass "datetime") (VStr "x") ∧
    typeCaster (registerResolver (tClass "datetime") dtNewResolver cReg8)
        tInt (VInt 1) =
      typeCaster cReg8 tInt (VInt 1) := by
  obtain ⟨h1, h2, h3⟩ :=
    claim8_decoder_priority cReg8 (tClass "datetime") dtNewResolver
      dtOldResolver rfl (List.mem_cons_self _ _)
  exact ⟨h1, h2 (VStr "x"), h3 tInt (VInt 1) rfl⟩

/-- One `from_dict` loop iteration never changes the input document. -/
theorem fromDictStep_doc (reg : DecoderReg) (f : FieldMeta) (s : FDState) :
    ((fromDictStep reg f s).1).doc = s.doc := by
  rw [fromDictStep]
  split
  · rfl
  · split
    · rfl
    · split <;> rfl

/-- The whole `from_dict` loop never changes the input document. -/
theorem fromDictGo_doc (reg : DecoderReg) (fm : List FieldMeta) :
    ∀ s : FDState, ((fromDictGo reg fm s).1).doc = s.doc := by
  induction fm with
  | nil => intro s; rfl
  | cons f rest ih =>
    intro s
    unfold fromDictGo
    rcases h : fromDictStep reg f s with ⟨s2, e⟩
    have hd : s2.doc = s.doc := by
      have := fromDictStep_doc reg f s
      rw [h] at this
      exact this
    cases e with
    | none => simpa [hd] using ih s2
    | some e => simpa using hd

/-- Claim C9 — `from_dict` never mutates its input mapping: whatever
the registry, laziness flag, class and document, the document state
after `from_dict` returns or raises is exactly the input document,
every decoded value having been accumulated in the fresh `_dict_repr`
mapping. -/
theorem claim9_no_mutation (reg : DecoderReg) (lazy : Bool) (cname : String)
    (fm : List FieldMeta) (doc : List (String × Value)) :
    ((fromDictSt reg lazy cname fm doc).2).doc = doc := by
  unfold fromDictSt
  rcases h : fromDictGo reg fm ⟨doc, [], []⟩ with ⟨s, e⟩
  have hd : s.doc = doc := by
    have := fromDictGo_doc reg fm ⟨doc, [], []⟩
    rw [h] at this
    exact this
  cases e with
  | none => simp only []; split <;> exact hd
  | some e => exact hd

/-- Claim C4 counterexample — the canonical validation engine
(`_validate_field_value`, validation.py) does not reject a bare-`dict`
field: the empty mapping (and any mapping) passes as an ordinary
`isinstance` success, so a field declared bare `dict` is not "always
invalid regardless of value". -/
theorem claim4_counterexample :
    validateFieldValue (VDict []) ⟨"c_dict", tDictBare, true, false, none⟩ =
      true :=
  rfl

/-- Claim C4 (amended) — the unconditional bare-dict rejection with the
distinct error lives in the legacy checker: for a field whose stripped
annotation is the bare mapping type, `__check_and_update_error_list`
(`__init__.py`) records the distinct `Invalid type! ... is a dict`
message for every value (including the empty mapping), before any
default or `isinstance` check; the canonical `_validate_field_value`
(validation.py) instead validates a bare-`dict` field by a plain
`isinstance` check, accepting every dict value and rejecting non-dicts
as ordinary type mismatches. -/
theorem claim4_bare_dict_amended :
    (∀ (v : Value) (errors : List (String × List String)) (attr : String)
       (idx : Option Nat) (dflt : Option Value),
       checkAndUpdateErrorList v (getAttributeTypeOld tDictBare) errors attr
           idx dflt =
         saveErrors errors attr (invalidDictMessage attr)) ∧
    (∀ (v : Value) (nm : String),
       validateFieldValue v ⟨nm, tDictBare, true, false, none⟩ =
         (v matches VDict _)) :=
  ⟨fun _ _ _ _ _ => rfl, fun v _ => by cases v <;> rfl⟩

/-- Claim C5 counterexample — fixed-tuple validation is not positional:
against `Tuple[int, str]` the value `("x", 5)` passes although the
element at position 0 does not validate against the descriptor at
position 0 (each element may match any declared position's
descriptor). -/
theorem claim5_counterexample :
    validateFieldValue (VTuple [VStr "x", VInt 5])
        ⟨"t", tTuple [tInt, tStr], true, false, none⟩ = true ∧
    validateCore (VStr "x") tInt none = false :=
  ⟨rfl, rfl⟩

/-- Claim C5 (amended) — for a defaultless field declared as a tuple
annotation, validation holds iff the value's length equals the
annotation's arity and every element validates against at least one of
the declared element descriptors (any position — the same membership
rule as list elements), not positionally. -/
theorem claim5_fixed_tuple_amended (nm : String) (args : List Ty)
    (items : List Value) :
    validateFieldValue (VTuple items) ⟨nm, tTuple args, true, false, none⟩ =
        true ↔
      (items.length = args.length ∧
        ∀ x ∈ items, ∃ t ∈ args, validateCore x t none = true) := by
  show (if args.length == items.length then
      items.all fun x => validateAnyOf x args
    else false) = true ↔ _
  by_cases h : args.length = items.length
  · simp [h, List.all_eq_true, validateAnyOf_eq_any, List.any_eq_true]
  · have hb : (args.length == items.length) = false :=
      beq_eq_false_iff_ne.mpr h
    simp only [hb, Bool.false_eq_true, if_false, false_iff]
    intro hc
    exact h hc.1.symm



/-- A document restricted to a set of keys (`\x7bk: v for k, v in
d.items() if k in names\x7d`). -/
def restrictDoc (doc : List (String × Value)) (names : List String) :
    List (String × Value) :=
  doc.filter fun p => names.contains p.1

/-- `restrictDoc` unfolded one step. -/
theorem restrictDoc_cons (a : String) (v : Value)
    (rest : List (String × Value)) (names : List String) :
    restrictDoc ((a, v) :: rest) names =
      if names.contains a then (a, v) :: restrictDoc rest names
      else restrictDoc rest names := by
  simp only [restrictDoc, List.filter_cons]

/-- Looking up a key kept by the restriction sees the same binding. -/
theorem lookupStr_restrict (names : List String) (k : String)
    (hk : names.contains k = true) :
    ∀ doc, lookupStr (restrictDoc doc names) k = lookupStr doc k := by
  intro doc
  induction doc with
  | nil => rfl
  | cons p rest ih =>
    rcases p with ⟨a, v⟩
    rw [restrictDoc_cons]
    by_cases ha : names.contains a = true
    · rw [if_pos ha, lookupStr, lookupStr, ih]
    · have hak : (a == k) = false := by
        cases hbe : a == k with
        | false => rfl
        | true => exact absurd (eq_of_beq hbe ▸ hk) ha
      rw [if_neg ha, ih, lookupStr, hak]
      simp

/-- Containment of a key kept by the restriction is unchanged. -/
theorem containsStr_restrict (names : List String) (k : String)
    (hk : names.contains k = true) :
    ∀ doc, containsStr (restrictDoc doc names) k = containsStr doc k := by
  intro doc
  induction doc with
  | nil => rfl
  | cons p rest ih =>
    rcases p with ⟨a, v⟩
    rw [restrictDoc_cons]
    by_cases ha : names.contains a = true
    · rw [if_pos ha, containsStr, containsStr, ih]
    · have hak : (a == k) = false := by
        cases hbe : a == k with
        | false => rfl
        | true => exact absurd (eq_of_beq hbe ▸ hk) ha
      rw [if_neg ha, ih, containsStr, hak]
      simp

/-- One loop iteration of `from_dict` reads the document only through
`get` and `in` at the field name, so two documents agreeing there give
the same keyword-map update, missing entries and exception. -/
theorem fromDictStep_congr (reg : DecoderReg) (f : FieldMeta)
    (d1 d2 : List (String × Value)) (out : List (String × Value))
    (m : List (String × Ty × String))
    (hl : lookupStr d1 f.name = lookupStr d2 f.name)
    (hc : containsStr d1 f.name = containsStr d2 f.name) :
    (fromDictStep reg f ⟨d1, out, m⟩).1.out =
        (fromDictStep reg f ⟨d2, out, m⟩).1.out ∧
    (fromDictStep reg f ⟨d1, out, m⟩).1.missing =
        (fromDictStep reg f ⟨d2, out, m⟩).1.missing ∧
    (fromDictStep reg f ⟨d1, out, m⟩).2 =
        (fromDictStep reg f ⟨d2, out, m⟩).2 := by
  rw [fromDictStep, fromDictStep]
  simp only [hl, hc]
  split
  · exact ⟨rfl, rfl, rfl⟩
  · split
    · exact ⟨rfl, rfl, rfl⟩
    · split <;> exact ⟨rfl, rfl, rfl⟩

/-- The `from_dict` loop gives the same keyword map, missing list and
exception on a document and on its restriction to the field names. -/
theorem fromDictGo_restrict (reg : DecoderReg) (names : List String) :
    ∀ (fm : List FieldMeta) (doc out : List (String × Value))
      (m : List (String × Ty × String)),
      (∀ f ∈ fm, names.contains f.name = true) →
      (fromDictGo reg fm ⟨doc, out, m⟩).1.out =
          (fromDictGo reg fm ⟨restrictDoc doc names, out, m⟩).1.out ∧
      (fromDictGo reg fm ⟨doc, out, m⟩).1.missing =
          (fromDictGo reg fm ⟨restrictDoc doc names, out, m⟩).1.missing ∧
      (fromDictGo reg fm ⟨doc, out, m⟩).2 =
          (fromDictGo reg fm ⟨restrictDoc doc names, out, m⟩).2 := by
  intro fm
  induction fm with
  | nil => intro doc out m _; exact ⟨rfl, rfl, rfl⟩
  | cons f rest ih =>
    intro doc out m hall
    have hf : names.contains f.name = true := hall f (List.mem_cons_self f rest)
    have hrest : ∀ g ∈ rest, names.contains g.name = true := fun g hg =>
      hall g (List.mem_cons_of_mem f hg)
    have hcng := fromDictStep_congr reg f doc (restrictDoc doc names) out m
      (lookupStr_restrict names f.name hf doc).symm
      (containsStr_restrict names f.name hf doc).symm
    have hda := fromDictStep_doc reg f ⟨doc, out, m⟩
    have hdb := fromDictStep_doc reg f ⟨restrictDoc doc names, out, m⟩
    rcases h1 : fromDictStep reg f ⟨doc, out, m⟩ with ⟨⟨sd1, so1, sm1⟩, e1⟩
    rcases h2 : fromDictStep reg f ⟨restrictDoc doc names, out, m⟩ with
      ⟨⟨sd2, so2, sm2⟩, e2⟩
    rw [h1] at hcng hda
    rw [h2] at hcng hdb
    simp only at hcng hda hdb
    obtain ⟨ho, hm, he⟩ := hcng
    subst hda hdb ho hm he
    rw [fromDictGo, fromDictGo, h1, h2]
    cases e1 with
    | some e => exact ⟨rfl, rfl, rfl⟩
    | none => exact ih _ so1 sm1 hrest

/-- Keys added to the keyword map stay within a key set. -/
theorem updateAssoc_all (P : String → Bool) :
    ∀ (out : List (String × Value)) (k : String) (v : Value),
      (out.all fun p => P p.1) = true → P k = true →
      ((updateAssoc out k v).all fun p => P p.1) = true := by
  intro out
  induction out with
  | nil => intro k v _ hk; simpa [updateAssoc] using hk
  | cons p rest ih =>
    intro k v hall hk
    rcases p with ⟨a, w⟩
    simp only [List.all_cons, Bool.and_eq_true] at hall
    rw [updateAssoc]
    by_cases hak : (a == k) = true
    · simp only [if_pos hak, List.all_cons, Bool.and_eq_true]
      exact ⟨hall.1, hall.2⟩
    · simp only [if_neg hak, List.all_cons, Bool.and_eq_true]
      exact ⟨hall.1, ih k v hall.2 hk⟩

/-- The `from_dict` loop only ever binds declared field names in the
keyword map. -/
theorem fromDictGo_out_keys (reg : DecoderReg) (names : List String) :
    ∀ (fm : List FieldMeta) (s : FDState),
      (∀ f ∈ fm, names.contains f.name = true) →
      (s.out.all fun p => names.contains p.1) = true →
      (((fromDictGo reg fm s).1.out).all fun p => names.contains p.1) = true := by
  intro fm
  induction fm with
  | nil => intro s _ h; exact h
  | cons f rest ih =>
    intro s hall hout
    have hf : names.contains f.name = true := hall f (List.mem_cons_self f rest)
    have hrest : ∀ g ∈ rest, names.contains g.name = true := fun g hg =>
      hall g (List.mem_cons_of_mem f hg)
    have hstep : ((fromDictStep reg f s).1.out.all
        fun p => names.contains p.1) = true := by
      rw [fromDictStep]
      split
      · exact hout
      · split
        · exact hout
        · split <;> exact updateAssoc_all _ s.out f.name _ hout hf
    rw [fromDictGo]
    rcases h1 : fromDictStep reg f s with ⟨s2, e⟩
    rw [h1] at hstep
    cases e with
    | none => exact ih s2 hrest hstep
    | some e => exact hstep

/-- Claim C10 — keys of the input document that do not name a declared
field are silently ignored: `from_dict` returns the same result on the
document and on its restriction to the declared field names (so extra
keys cause no error), and the keyword map passed to the constructor
binds only declared field names. -/
theorem claim10_extra_keys_ignored (reg : DecoderReg) (lazy : Bool)
    (cname : String) (fm : List FieldMeta) (doc : List (String × Value)) :
    fromDict reg lazy cname fm doc =
        fromDict reg lazy cname fm (restrictDoc doc (fm.map FieldMeta.name)) ∧
    (((fromDictSt reg lazy cname fm doc).2.out).all
        fun p => (fm.map FieldMeta.name).contains p.1) = true := by
  have hall : ∀ f ∈ fm, (fm.map FieldMeta.name).contains f.name = true :=
    fun f hf => List.elem_eq_true_of_mem (List.mem_map_of_mem FieldMeta.name hf)
  constructor
  · obtain ⟨ho, hm, he⟩ :=
      fromDictGo_restrict reg (fm.map FieldMeta.name) fm doc [] [] hall
    unfold fromDict fromDictSt
    rcases h1 : fromDictGo reg fm ⟨doc, [], []⟩ with ⟨s1, e1⟩
    rcases h2 : fromDictGo reg fm
        ⟨restrictDoc doc (fm.map FieldMeta.name), [], []⟩ with ⟨s2, e2⟩
    rw [h1, h2] at ho hm he
    simp only at ho hm he
    subst he
    cases e1 with
    | some e => rfl
    | none =>
      simp only [hm, ho]
      split <;> rfl
  · have hkeys := fromDictGo_out_keys reg (fm.map FieldMeta.name) fm
      ⟨doc, [], []⟩ hall rfl
    unfold fromDictSt
    rcases h1 : fromDictGo reg fm ⟨doc, [], []⟩ with ⟨s1, e1⟩
    rw [h1] at hkeys
    cases e1 with
    | some e => exact hkeys
    | none =>
      simp only
      split <;> exact hkeys


/-- The nested record class of the C1 counterexample: `Child` with one
required `int` field `b`. -/
def cexChildFm : List FieldMeta := [⟨"b", tInt, true, false, none⟩]

/-- The outer record class of the C1 counterexample: `R` with one
required field `a : Child`. -/
def cexRFm : List FieldMeta := [⟨"a", tRec "Child", true, false, none⟩]

/-- The attribute map of the valid instance `R(a=Child(b=5))`. -/
def cexRFlds : List (String × Value) :=
  [("a", VInst "Child" [("b", VInt 5)])]

/-- Claim C1 counterexample — with the default (empty) registries,
`R(a=Child(b=5))` constructs without raising, but
`from_dict(R, i.dict())` does not round-trip: `dict()` lowers the
nested `Child` to a mapping, the empty decode registry passes the
mapping through unchanged, and construction-time validation rejects it
with a `TypeError`, so no instance is returned at all. -/
theorem claim1_counterexample :
    mkInstance false "R" cexRFm cexRFlds = .ok (VInst "R" cexRFlds) ∧
    dictOf false cexRFlds = [("a", VDict [(VStr "b", VInt 5)])] ∧
    fromDict [] false "R" cexRFm (dictOf false cexRFlds) =
      .error (.validationError
        [("a", tRec "Child", pyRepr (VDict [(VStr "b", VInt 5)]))]) :=
  ⟨rfl, rfl, rfl⟩

/-- The record class of the C2 counterexample: a field `a` declared as
bare `list` and a required `int` field `b`. -/
def cexBareFm : List FieldMeta :=
  [⟨"a", tListBare, true, false, none⟩, ⟨"b", tInt, true, false, none⟩]

/-- Claim C2 counterexample — the required field `b` is missing from
the document (so the claim demands one missing-content error naming
exactly `b`), but the present field `a`, declared as a bare `list`,
makes `from_dict` read the absent `__args__` of `list` and raise
`AttributeError` during the scan, before the missing check: no
missing-content error naming `b` is ever raised. -/
theorem claim2_counterexample :
    ((cexBareFm.filter fun f =>
        !containsStr [("a", VList [VInt 1])] f.name &&
          !f.have_default_value).map FieldMeta.name) = ["b"] ∧
    fromDict [] false "S" cexBareFm [("a", VList [VInt 1])] =
      .error .attributeError :=
  ⟨rfl, rfl⟩

/-- The self-referential environment of the C3 counterexample: class
`A` with a field `nxt : Optional[A]`. -/
def cexEnvA : Env :=
  [("A", [⟨"nxt", tUnion [tRec "A", tNone], true, false, none⟩])]

/-- Claim C3 counterexample — generating the schema of the
self-referential class `A` terminates, and the property schema of
`nxt` contains the reference `#/$defs/A`, but the document has no
`$defs` key at all (the `defs` table stays empty): the root type,
although referenced by its own field, never receives a `$defs` entry,
so "exactly one `$defs` entry per distinct record type involved in the
cycle (including the root type)" fails. -/
theorem claim3_counterexample :
    ((generate cexEnvA [] 32 "A").map fun r =>
      r.map fun sch =>
        (schLookup sch "$defs",
          (schLookup sch "properties").bind fun props =>
            schLookup props "nxt")) =
    some (.ok (none,
      some (JSch.jobj [("anyOf",
        JSch.jarr [refSchema "A",
          JSch.jobj [("type", JSch.jstr "null")]])]))) :=
  rfl

/-- The single-field record class of the C6 scenario: `a : List[int]`. -/
def cexListFm : List FieldMeta := [⟨"a", tList [tInt], true, false, none⟩]

/-- Claim C6 counterexample — constructing with `a = [1, 2, "x", 3]`
(bad element at index 2) and with `a = ["x", 1, 2, 3]` (bad element at
index 0) raises a `TypeError` whose structured list holds exactly one
entry `(field, declared type, repr of the whole list)` in both cases:
the structured error identifies the field, not an element index — no
index component exists, and whole-record validation emits one entry
per field, not one per offending element. -/
theorem claim6_counterexample :
    mkInstance false "S" cexListFm
        [("a", VList [VInt 1, VInt 2, VStr "x", VInt 3])] =
      .error (.validationError
        [("a", tList [tInt],
          pyRepr (VList [VInt 1, VInt 2, VStr "x", VInt 3]))]) ∧
    mkInstance false "S" cexListFm
        [("a", VList [VStr "x", VInt 1, VInt 2, VInt 3])] =
      .error (.validationError
        [("a", tList [tInt],
          pyRepr (VList [VStr "x", VInt 1, VInt 2, VInt 3]))]) :=
  ⟨rfl, rfl⟩

/-- `validateCore` against the bare `int` class is exactly the Python
`isinstance(x, int)` check (`bool` included). -/
theorem validateCore_int (x : Value) :
    validateCore x tInt none = isinstanceOf x tInt := rfl

/-- Claim C6 (amended) — constructing a record whose field
`a : List[int]` receives any list value either succeeds (when every
element is an `int`) or raises one `TypeError` whose structured error
list holds exactly one entry for the whole field: the field name, the
declared annotation and the `repr` of the entire offending list;
element iteration happens only inside `_validate_field_value` to
decide validity and records no index. -/
theorem claim6_list_error_amended (items : List Value) :
    mkInstance false "S" cexListFm [("a", VList items)] =
      (if items.all (fun x => isinstanceOf x tInt) then
        .ok (VInst "S" [("a", VList items)])
      else
        .error (.validationError
          [("a", tList [tInt], pyRepr (VList items))])) := by
  have hval : validateFieldValue (VList items)
      ⟨"a", tList [tInt], true, false, none⟩ =
      items.all fun x => isinstanceOf x tInt := by
    show (items.all fun x => validateAnyOf x [tInt]) = _
    simp only [validateAnyOf, validateCore_int, Bool.or_false]
  have hmk : mkInstance false "S" cexListFm [("a", VList items)] =
      (match validateModel false cexListFm [("a", VList items)] with
       | [] => .ok (VInst "S" [("a", VList items)])
       | errs => .error (.validationError errs)) := rfl
  have hvm : validateModel false cexListFm [("a", VList items)] =
      (if items.all (fun x => isinstanceOf x tInt) then []
       else [("a", tList [tInt], pyRepr (VList items))]) := by
    show (if validateFieldValue (VList items)
        ⟨"a", tList [tInt], true, false, none⟩ then
        ([] : List (String × Ty × String))
      else [("a", tList [tInt], pyRepr (VList items))]) = _
    rw [hval]
  rw [hmk, hvm]
  by_cases h : (items.all fun x => isinstanceOf x tInt) = true
  · simp only [h, if_true]
  · simp only [Bool.not_eq_true] at h
    simp only [h, Bool.false_eq_true, if_false]

/-- Claim C7 counterexample — a field declared `Optional[str]` with
declared default `5`: the value `5` passes validation (it equals the
default) although it neither validates against `str` nor is `None`, so
"every value that neither validates against T nor is None fails
validation" does not hold for every `Optional[T]` field. -/
theorem claim7_counterexample :
    validateFieldValue (VInt 5)
        ⟨"x", tUnion [tStr, tNone], false, true, some (VInt 5)⟩ = true ∧
    validateCore (VInt 5) tStr none = false ∧
    VInt 5 ≠ VNone :=
  ⟨rfl, rfl, fun h => Value.noConfusion h⟩

/-- Claim C7 (amended) — for a field declared `Optional[T]` whose
declared default, if any, is `None`: `None` passes validation, every
value validating against `T` passes, and every value that neither
validates against `T` nor is `None` fails.  (A field with a non-`None`
default additionally accepts that default, by the `value ==
field.default` rule — the loophole shown by the counterexample.) -/
theorem claim7_optional_amended (nm : String) (T : Ty) (req hdv : Bool)
    (dflt : Option Value) (hd : dflt = none ∨ dflt = some VNone) :
    validateFieldValue VNone ⟨nm, tUnion [T, tNone], req, hdv, dflt⟩ = true ∧
    (∀ v, validateCore v T none = true →
      validateFieldValue v ⟨nm, tUnion [T, tNone], req, hdv, dflt⟩ = true) ∧
    (∀ v, validateCore v T none = false → v ≠ VNone →
      validateFieldValue v ⟨nm, tUnion [T, tNone], req, hdv, dflt⟩ = false) := by
  have e1 : ((tUnion [T, tNone] : Ty) == tEllipsis) = false := rfl
  have e2 : ((tUnion [T, tNone] : Ty) == tAny) = false := rfl
  have e3 : isGenericAlias (tUnion [T, tNone]) = true := rfl
  have e4 : isSpecialFormUnion (tUnion [T, tNone]) = true := rfl
  refine ⟨?_, ?_, ?_⟩
  · show validateCore VNone (tUnion [T, tNone]) dflt = true
    rw [validateCore]
    by_cases hm : matchesDefault VNone dflt = true
    · simp [hm]
    · simp only [Bool.not_eq_true] at hm
      have hany : validateAnyOf VNone [T, tNone] = true := by
        simp only [validateAnyOf, Bool.or_eq_true]
        right; left
        rfl
      simp [hm, e1, e2, e3, e4, hany]
  · intro v hv
    show validateCore v (tUnion [T, tNone]) dflt = true
    rw [validateCore]
    by_cases hm : matchesDefault v dflt = true
    · simp [hm]
    · simp only [Bool.not_eq_true] at hm
      have hany : validateAnyOf v [T, tNone] = true := by
        simp only [validateAnyOf, Bool.or_eq_true]
        left; exact hv
      simp [hm, e1, e2, e3, e4, hany]
  · intro v hv hne
    show validateCore v (tUnion [T, tNone]) dflt = false
    rw [validateCore]
    have hm : matchesDefault v dflt = false := by
      rcases hd with rfl | rfl
      · rfl
      · show pyEq v VNone = false
        cases hb : pyEq v VNone with
        | false => rfl
        | true => exact absurd ((pyEq_vnone v).mp hb) hne
    have hnone : validateCore v tNone none = false := by
      show isinstanceOf v tNone = false
      cases v <;> first | rfl | exact absurd rfl hne
    have hany : validateAnyOf v [T, tNone] = false := by
      simp only [validateAnyOf, Bool.or_eq_false_iff]
      exact ⟨hv, hnone, trivial⟩
    simp [hm, e1, e2, e3, e4, hany]

/-- Witness for the amended C7 at `T = str`: `None` and `"a"` pass, the
non-`str`, non-`None` value `3` fails. -/
theorem claim7_optional_witness :
    validateFieldValue VNone ⟨"x", tUnion [tStr, tNone], true, false, none⟩ =
        true ∧
    validateFieldValue (VStr "a")
        ⟨"x", tUnion [tStr, tNone], true, false, none⟩ = true ∧
    validateFieldValue (VInt 3)
        ⟨"x", tUnion [tStr, tNone], true, false, none⟩ = false := by
  obtain ⟨h1, h2, h3⟩ :=
    claim7_optional_amended "x" tStr true false none (Or.inl rfl)
  exact ⟨h1, h2 (VStr "a") rfl, h3 (VInt 3) rfl (fun h => Value.noConfusion h)⟩

/-- A present value equal to the declared default is stored undecoded
(core.py 274-276). -/
theorem castField_default (reg : DecoderReg) (f : FieldMeta) (w : Value)
    (hd : matchesDefault w f.default = true) :
    castField reg f w = Except.ok w := by
  unfold castField
  rw [if_pos hd]

/-- Decoding a present field value raises only for a bare `list` or
bare `tuple` annotation (the missing `__args__`): every other
annotation decodes without exception. -/
theorem castField_ok (reg : DecoderReg) (f : FieldMeta) (w : Value)
    (h1 : f.ann ≠ tListBare) (h2 : f.ann ≠ tTupleBare) :
    ∃ v, castField reg f w = Except.ok v := by
  by_cases hd : matchesDefault w f.default = true
  · exact ⟨w, castField_default reg f w hd⟩
  · rcases f with ⟨nm, ann, rq, hdv, dflt⟩
    unfold castField
    dsimp only at hd ⊢
    rw [if_neg hd]
    cases ann with
    | tListBare => exact absurd rfl h1
    | tTupleBare => exact absurd rfl h2
    | tNone => cases w <;> exact ⟨_, rfl⟩
    | tBool => exact ⟨_, rfl⟩
    | tInt => exact ⟨_, rfl⟩
    | tStr => exact ⟨_, rfl⟩
    | tAny => exact ⟨_, rfl⟩
    | tEllipsis => exact ⟨_, rfl⟩
    | tKobject => exact ⟨_, rfl⟩
    | tUnionSF => exact ⟨_, rfl⟩
    | tDictBare => cases w <;> exact ⟨_, rfl⟩
    | tRec n => exact ⟨_, rfl⟩
    | tClass n => exact ⟨_, rfl⟩
    | tList args => cases w <;> cases args <;> exact ⟨_, rfl⟩
    | tTuple args => cases w <;> exact ⟨_, rfl⟩
    | tDict k v2 => cases w <;> exact ⟨_, rfl⟩
    | tUnion args => exact ⟨_, rfl⟩

/-- The structured entries `from_dict` accumulates for the absent
required fields of a document (core.py 256-266): one `(name,
annotation, "Empty")` entry per defaultless declared field missing from
the document, in declaration order. -/
def missingEntries (fm : List FieldMeta) (doc : List (String × Value)) :
    List (String × Ty × String) :=
  (fm.filter fun f => !containsStr doc f.name && !f.have_default_value).map
    fun f => (f.name, f.ann, "Empty")

/-- `missingEntries` unfolded one field. -/
theorem missingEntries_cons (f : FieldMeta) (rest : List FieldMeta)
    (doc : List (String × Value)) :
    missingEntries (f :: rest) doc =
      (if !containsStr doc f.name && !f.have_default_value then
        [(f.name, f.ann, "Empty")] else []) ++ missingEntries rest doc := by
  rw [missingEntries, List.filter_cons]
  split
  · rw [List.map_cons]; rfl
  · rfl

/-- The `from_dict` field loop on a field map free of bare `list` and
bare `tuple` annotations finishes the whole scan without raising, and
its final missing-entry list is the input list extended by exactly one
entry per absent defaultless field. -/
theorem fromDictGo_missing (reg : DecoderReg) (fm : List FieldMeta)
    (hnb : ∀ f ∈ fm, f.ann ≠ tListBare ∧ f.ann ≠ tTupleBare) :
    ∀ s : FDState, (fromDictGo reg fm s).2 = none ∧
      ((fromDictGo reg fm s).1).missing =
        s.missing ++ missingEntries fm s.doc := by
  induction fm with
  | nil =>
    intro s
    refine ⟨rfl, ?_⟩
    show s.missing = s.missing ++ missingEntries [] s.doc
    rw [show missingEntries [] s.doc = [] from rfl, List.append_nil]
  | cons f rest ih =>
    intro s
    have hnbf := hnb f (List.mem_cons_self f rest)
    have hnbr : ∀ g ∈ rest, g.ann ≠ tListBare ∧ g.ann ≠ tTupleBare :=
      fun g hg => hnb g (List.mem_cons_of_mem f hg)
    cases hc : containsStr s.doc f.name with
    | true =>
      obtain ⟨v, hv⟩ :=
        castField_ok reg f ((lookupStr s.doc f.name).getD VNone) hnbf.1 hnbf.2
      have hstep : fromDictStep reg f s =
          ({ s with out := updateAssoc s.out f.name v }, none) := by
        simp only [fromDictStep, hc, Bool.not_true, Bool.false_and,
          Bool.false_eq_true, if_false, hv]
      have hme : missingEntries (f :: rest) s.doc = missingEntries rest s.doc := by
        rw [missingEntries_cons]
        simp [hc]
      have hrest := ih hnbr { s with out := updateAssoc s.out f.name v }
      rw [fromDictGo, hstep]
      exact ⟨hrest.1, by rw [hme]; exact hrest.2⟩
    | false =>
      cases hdv : f.have_default_value with
      | true =>
        have hstep : fromDictStep reg f s = (s, none) := by
          simp only [fromDictStep, hc, Bool.not_false, Bool.true_and, hdv,
            if_true]
        have hme : missingEntries (f :: rest) s.doc =
            missingEntries rest s.doc := by
          rw [missingEntries_cons]
          simp [hdv]
        have hrest := ih hnbr s
        rw [fromDictGo, hstep]
        exact ⟨hrest.1, by rw [hme]; exact hrest.2⟩
      | false =>
        have hstep : fromDictStep reg f s =
            ({ s with
                missing := s.missing ++ [(f.name, f.ann, "Empty")] }, none) := by
          simp only [fromDictStep, hc, Bool.not_false, Bool.true_and, hdv,
            Bool.false_eq_true, if_false, if_true]
        have hme : missingEntries (f :: rest) s.doc =
            (f.name, f.ann, "Empty") :: missingEntries rest s.doc := by
          rw [missingEntries_cons]
          simp [hc, hdv]
        have hrest :=
          ih hnbr { s with missing := s.missing ++ [(f.name, f.ann, "Empty")] }
        rw [fromDictGo, hstep]
        refine ⟨hrest.1, ?_⟩
        rw [hme]
        have h2 := hrest.2
        dsimp only at h2
        rw [List.append_assoc] at h2
        exact h2

/-- Claim C2 (amended) — on a record type free of bare-`list`/bare-
`tuple` field annotations (whose `AttributeError` would abort the scan,
as the counterexample shows), `from_dict` on a document lacking a
non-empty set of required defaultless fields scans all fields without
raising mid-loop, then raises exactly one `TypeError` whose structured
error list has exactly one entry per absent defaultless field in
declaration order — naming exactly those fields, never fewer, and
without duplicates whenever the declared field names are distinct. -/
theorem claim2_missing_fields_amended (reg : DecoderReg) (lazy : Bool)
    (cname : String) (fm : List FieldMeta) (doc : List (String × Value))
    (hnb : ∀ f ∈ fm, f.ann ≠ tListBare ∧ f.ann ≠ tTupleBare)
    (hne : missingEntries fm doc ≠ []) :
    (fromDictGo reg fm ⟨doc, [], []⟩).2 = none ∧
    fromDict reg lazy cname fm doc =
      .error (.missingContent (missingEntries fm doc)) ∧
    (missingEntries fm doc).map (fun e => e.1) =
      (fm.filter fun f =>
        !containsStr doc f.name && !f.have_default_value).map FieldMeta.name ∧
    ((fm.map FieldMeta.name).Nodup →
      ((missingEntries fm doc).map fun e => e.1).Nodup) := by
  obtain ⟨h1, h2⟩ := fromDictGo_missing reg fm hnb ⟨doc, [], []⟩
  refine ⟨h1, ?_, ?_, ?_⟩
  · rcases hgo : fromDictGo reg fm ⟨doc, [], []⟩ with ⟨s, e⟩
    rw [hgo] at h1 h2
    replace h1 : e = none := h1
    replace h2 : s.missing = [] ++ missingEntries fm doc := h2
    subst h1
    rw [List.nil_append] at h2
    have hie : s.missing.isEmpty = false := by
      rw [h2]
      cases hm : missingEntries fm doc with
      | nil => exact absurd hm hne
      | cons a l => rfl
    rw [h2] at hie
    simp only [fromDict, fromDictSt, hgo, h2, hie, Bool.false_eq_true, if_false]
  · rw [missingEntries, List.map_map]
    rfl
  · intro hnd
    rw [missingEntries, List.map_map]
    have hsub :
        ((fm.filter fun f =>
          !containsStr doc f.name && !f.have_default_value).map
            FieldMeta.name).Sublist (fm.map FieldMeta.name) :=
      (List.filter_sublist fm).map FieldMeta.name
    exact List.Nodup.sublist hsub hnd

/-- The record type of the C2 witness: two required fields and one
defaulted field. -/
def cexM2Fm : List FieldMeta :=
  [⟨"a", tInt, true, false, none⟩, ⟨"b", tStr, true, false, none⟩,
   ⟨"c", tBool, false, true, some (VBool true)⟩]

/-- The empty input document of the C2 witness. -/
def cexM2Doc : List (String × Value) := []

/-- Witness for the amended C2 at the concrete record type: both
required fields are reported in one error, each once. -/
theorem claim2_missing_fields_witness :
    missingEntries cexM2Fm cexM2Doc =
      [("a", tInt, "Empty"), ("b", tStr, "Empty")] ∧
    fromDict [] false "P" cexM2Fm cexM2Doc =
      .error (.missingContent (missingEntries cexM2Fm cexM2Doc)) ∧
    ((missingEntries cexM2Fm cexM2Doc).map fun e => e.1).Nodup :=
  have h := claim2_missing_fields_amended [] false "P" cexM2Fm cexM2Doc
    (by
      intro f hf
      fin_cases hf <;>
        exact ⟨fun hx => Ty.noConfusion hx, fun hx => Ty.noConfusion hx⟩)
    (fun hx => List.noConfusion hx)
  ⟨rfl, h.2.1, h.2.2.2 (by decide)⟩

/-- `dict()` with `remove_nones=False` encodes every attribute in
order, none skipped. -/
theorem dictFields_false (fs : List (String × Value)) :
    dictFields false fs = fs.map fun p => (p.1, encOne false p.2) := by
  induction fs with
  | nil => rfl
  | cons p rest ih =>
    rcases p with ⟨n, v⟩
    show (n, encOne false v) :: dictFields false rest =
      ((n, v) :: rest).map fun p => (p.1, encOne false p.2)
    rw [ih]
    rfl

/-- `d[k] = v` on a dict not containing `k` appends the binding. -/
theorem updateAssoc_fresh (d : List (String × Value)) (k : String) (v : Value)
    (h : (d.map Prod.fst).contains k = false) :
    updateAssoc d k v = d ++ [(k, v)] := by
  induction d with
  | nil => rfl
  | cons p rest ih =>
    rcases p with ⟨a, w⟩
    replace h : ¬ k ∈ a :: rest.map Prod.fst := by simpa using h
    have h1 : (a == k) = false := by
      refine beq_eq_false_iff_ne.mpr fun he => h ?_
      rw [he]
      exact List.mem_cons_self k _
    have h2 : (rest.map Prod.fst).contains k = false := by
      simpa using fun hm => h (List.mem_cons_of_mem a hm)
    rw [updateAssoc, h1]
    simp only [Bool.false_eq_true, if_false]
    rw [ih h2]
    rfl

/-- Looking up an element's name in the name-keyed image of a
nodup-named record list finds that element's image value. -/
theorem lookupStr_map_aligned (g : FieldMeta × Value → Value) :
    ∀ (rs : List (FieldMeta × Value)) (t : FieldMeta × Value),
      (rs.map fun s => s.1.name).Nodup → t ∈ rs →
      lookupStr (rs.map fun s => (s.1.name, g s)) t.1.name = some (g t) := by
  intro rs
  induction rs with
  | nil => intro t _ ht; cases ht
  | cons hd tl ih =>
    intro t hnd ht
    rw [List.map_cons, List.nodup_cons] at hnd
    simp only [List.map_cons, lookupStr]
    rcases List.mem_cons.mp ht with rfl | htl
    · simp
    · have hne : (hd.1.name == t.1.name) = false := by
        refine beq_eq_false_iff_ne.mpr fun he => ?_
        exact hnd.1 (he ▸ List.mem_map_of_mem (fun s => s.1.name) htl)
      rw [hne]
      simp only [Bool.false_eq_true, if_false]
      exact ih t hnd.2 htl

/-- The name of every element of a record list is a key of the
name-keyed image document. -/
theorem containsStr_map_aligned (g : FieldMeta × Value → Value) :
    ∀ (rs : List (FieldMeta × Value)) (t : FieldMeta × Value), t ∈ rs →
      containsStr (rs.map fun s => (s.1.name, g s)) t.1.name = true := by
  intro rs
  induction rs with
  | nil => intro t ht; cases ht
  | cons hd tl ih =>
    intro t ht
    simp only [List.map_cons, containsStr]
    rcases List.mem_cons.mp ht with rfl | htl
    · simp
    · rw [ih t htl, Bool.or_true]

/-- Keyword binding of a declared parameter list against a keyword map
holding exactly the declared names reconstructs the attribute list. -/
theorem buildArgs_aligned (kwargs : List (String × Value)) :
    ∀ (rs : List (FieldMeta × Value)),
      (∀ t ∈ rs, lookupStr kwargs t.1.name = some t.2) →
      buildArgs (rs.map fun t => t.1) kwargs =
        .ok (rs.map fun t => (t.1.name, t.2)) := by
  intro rs
  induction rs with
  | nil => intro _; rfl
  | cons t tl ih =>
    intro h
    simp only [List.map_cons, buildArgs]
    rw [h t (List.mem_cons_self t tl)]
    rw [ih (fun u hu => h u (List.mem_cons_of_mem t hu))]
    rfl

/-- `cls(**kwargs)` on the exact declared keyword map of a valid record
reconstructs the instance. -/
theorem mkInstance_aligned (lazy : Bool) (cname : String)
    (rs : List (FieldMeta × Value))
    (hnd : (rs.map fun s => s.1.name).Nodup)
    (hvalid : validateModel lazy (rs.map fun t => t.1)
      (rs.map fun t => (t.1.name, t.2)) = []) :
    mkInstance lazy cname (rs.map fun t => t.1)
        (rs.map fun t => (t.1.name, t.2)) =
      .ok (VInst cname (rs.map fun t => (t.1.name, t.2))) := by
  have hfind : (rs.map fun t => (t.1.name, t.2)).find?
      (fun p => ((rs.map fun t => t.1).find? fun f => f.name == p.1).isNone) =
        none := by
    rw [List.find?_eq_none]
    intro p hp
    rcases List.mem_map.mp hp with ⟨t, htm, rfl⟩
    have hf : (((rs.map fun t => t.1).find? fun f =>
        f.name == t.1.name)).isSome = true :=
      List.find?_isSome.mpr
        ⟨t.1, List.mem_map_of_mem (fun u => u.1) htm, beq_self_eq_true _⟩
    intro hnone
    rw [Option.isNone_iff_eq_none] at hnone
    rw [hnone] at hf
    simp at hf
  rw [mkInstance, hfind]
  rw [buildArgs_aligned (rs.map fun t => (t.1.name, t.2)) rs
    (fun t ht => lookupStr_map_aligned (fun s => s.2) rs t hnd ht)]
  dsimp only
  rw [hvalid]

/-- The `from_dict` field loop on a document holding a decodable value
for every declared field accumulates exactly the decoded attribute
list, raising nothing and recording nothing missing. -/
theorem fromDictGo_aligned (reg : DecoderReg) (doc : List (String × Value)) :
    ∀ (cur : List (FieldMeta × Value)) (out0 : List (String × Value)),
      (∀ t ∈ cur, containsStr doc t.1.name = true) →
      (∀ t ∈ cur,
        castField reg t.1 ((lookupStr doc t.1.name).getD VNone) = .ok t.2) →
      (∀ t ∈ cur, ((out0.map Prod.fst).contains t.1.name) = false) →
      ((cur.map fun t => t.1.name).Nodup) →
      fromDictGo reg (cur.map fun t => t.1) ⟨doc, out0, []⟩ =
        (⟨doc, out0 ++ cur.map fun t => (t.1.name, t.2), []⟩, none) := by
  intro cur
  induction cur with
  | nil =>
    intro out0 _ _ _ _
    simp [fromDictGo]
  | cons t tl ih =>
    intro out0 hcont hcast hout hnd
    rw [List.map_cons, List.nodup_cons] at hnd
    have hct := hcont t (List.mem_cons_self t tl)
    have hstep : fromDictStep reg t.1 ⟨doc, out0, []⟩ =
        (⟨doc, out0 ++ [(t.1.name, t.2)], []⟩, none) := by
      simp only [fromDictStep, hct, Bool.not_true, Bool.false_and,
        Bool.false_eq_true, if_false, hcast t (List.mem_cons_self t tl)]
      rw [updateAssoc_fresh out0 t.1.name t.2 (hout t (List.mem_cons_self t tl))]
    have hout2 : ∀ u ∈ tl,
        (((out0 ++ [(t.1.name, t.2)]).map Prod.fst).contains u.1.name) =
          false := by
      intro u hu
      have h1 : ¬ u.1.name ∈ out0.map Prod.fst := by
        simpa using hout u (List.mem_cons_of_mem t hu)
      have h2 : u.1.name ≠ t.1.name := fun he =>
        hnd.1 (he ▸ List.mem_map_of_mem (fun s => s.1.name) hu)
      have hm : ¬ u.1.name ∈ (out0 ++ [(t.1.name, t.2)]).map Prod.fst := by
        rw [List.map_append]
        intro hmm
        rcases List.mem_append.mp hmm with hm1 | hm2
        · exact h1 hm1
        · simp only [List.map_cons, List.map_nil] at hm2
          exact h2 (List.mem_singleton.mp hm2)
      simpa using hm
    have ihh := ih (out0 ++ [(t.1.name, t.2)])
      (fun u hu => hcont u (List.mem_cons_of_mem t hu))
      (fun u hu => hcast u (List.mem_cons_of_mem t hu))
      hout2 hnd.2
    simp only [List.map_cons]
    rw [fromDictGo, hstep]
    dsimp only
    rw [ihh, List.append_assoc]
    rfl

/-- `from_dict` on a document binding every declared field name to a
value that decodes to the matching attribute of a valid record
reconstructs that record. -/
theorem fromDict_aligned (reg : DecoderReg) (lazy : Bool) (cname : String)
    (rs : List (FieldMeta × Value)) (doc : List (String × Value))
    (hnd : (rs.map fun s => s.1.name).Nodup)
    (hcont : ∀ t ∈ rs, containsStr doc t.1.name = true)
    (hcast : ∀ t ∈ rs,
      castField reg t.1 ((lookupStr doc t.1.name).getD VNone) = .ok t.2)
    (hvalid : validateModel lazy (rs.map fun t => t.1)
      (rs.map fun t => (t.1.name, t.2)) = []) :
    fromDict reg lazy cname (rs.map fun t => t.1) doc =
      .ok (VInst cname (rs.map fun t => (t.1.name, t.2))) := by
  have hgo := fromDictGo_aligned reg doc rs [] hcont hcast (fun t _ => rfl) hnd
  rw [List.nil_append] at hgo
  rw [fromDict, fromDictSt, hgo]
  exact mkInstance_aligned lazy cname rs hnd hvalid

/-- The JSON round trip of an instance attribute map whose every value
serializes: the document binds each field name to its JSON image. -/
theorem toJsonDoc_aligned :
    ∀ (rs : List (FieldMeta × Value)),
      (∀ t ∈ rs, toJsonVal t.2 ≠ none) →
      toJsonDoc (rs.map fun t => (t.1.name, t.2)) =
        some (rs.map fun t => (t.1.name, (toJsonVal t.2).getD VNone)) := by
  intro rs
  induction rs with
  | nil => intro _; rfl
  | cons t tl ih =>
    intro h
    simp only [List.map_cons, toJsonDoc]
    rcases hj : toJsonVal t.2 with _ | w
    · exact absurd hj (h t (List.mem_cons_self t tl))
    · rw [ih (fun u hu => h u (List.mem_cons_of_mem t hu))]
      rfl

/-- Claim C1 (amended) — round-tripping holds for records whose
per-field encodings decode back to the original attribute (in
particular all flat records of scalars under the default registries —
the counterexample shows nested records with an empty decoder registry
break it): for every valid record, `from_dict` of `dict()` returns an
instance with exactly the original attribute list, and
`loads(to_json())` followed by `from_dict` round-trips likewise
whenever the decoder side inverts the JSON image of every field. -/
theorem claim1_roundtrip_amended (reg : DecoderReg) (lazy : Bool)
    (cname : String) (rs : List (FieldMeta × Value))
    (hnd : (rs.map fun s => s.1.name).Nodup)
    (hvalid : validateModel lazy (rs.map fun t => t.1)
      (rs.map fun t => (t.1.name, t.2)) = [])
    (hdict : ∀ t ∈ rs, castField reg t.1 (encOne false t.2) = .ok t.2)
    (hjson : ∀ t ∈ rs, toJsonVal t.2 ≠ none ∧
      castField reg t.1 ((toJsonVal t.2).getD VNone) = .ok t.2) :
    fromDict reg lazy cname (rs.map fun t => t.1)
        (dictOf false (rs.map fun t => (t.1.name, t.2))) =
      .ok (VInst cname (rs.map fun t => (t.1.name, t.2))) ∧
    toJsonDoc (rs.map fun t => (t.1.name, t.2)) =
      some (rs.map fun t => (t.1.name, (toJsonVal t.2).getD VNone)) ∧
    fromDict reg lazy cname (rs.map fun t => t.1)
        (rs.map fun t => (t.1.name, (toJsonVal t.2).getD VNone)) =
      .ok (VInst cname (rs.map fun t => (t.1.name, t.2))) := by
  refine ⟨?_, toJsonDoc_aligned rs (fun t ht => (hjson t ht).1), ?_⟩
  · rw [dictOf, dictFields_false, List.map_map]
    exact fromDict_aligned reg lazy cname rs
      (rs.map fun t => (t.1.name, encOne false t.2)) hnd
      (fun t ht => containsStr_map_aligned (fun s => encOne false s.2) rs t ht)
      (fun t ht => by
        rw [lookupStr_map_aligned (fun s => encOne false s.2) rs t hnd ht]
        exact hdict t ht)
      hvalid
  · exact fromDict_aligned reg lazy cname rs
      (rs.map fun t => (t.1.name, (toJsonVal t.2).getD VNone)) hnd
      (fun t ht =>
        containsStr_map_aligned (fun s => (toJsonVal s.2).getD VNone) rs t ht)
      (fun t ht => by
        rw [lookupStr_map_aligned (fun s => (toJsonVal s.2).getD VNone)
          rs t hnd ht]
        exact (hjson t ht).2)
      hvalid

/-- The flat record of the C1 witness: `a : int = 7`, `b : str = "x"`. -/
def cexFlatRs : List (FieldMeta × Value) :=
  [(⟨"a", tInt, true, false, none⟩, VInt 7),
   (⟨"b", tStr, true, false, none⟩, VStr "x")]

/-- Witness for the amended C1 at the concrete flat record: both the
`dict()` and the JSON round trips reconstruct the instance. -/
theorem claim1_roundtrip_witness :
    dictOf false (cexFlatRs.map fun t => (t.1.name, t.2)) =
      [("a", VInt 7), ("b", VStr "x")] ∧
    fromDict [] false "Flat" (cexFlatRs.map fun t => t.1)
        (dictOf false (cexFlatRs.map fun t => (t.1.name, t.2))) =
      .ok (VInst "Flat" (cexFlatRs.map fun t => (t.1.name, t.2))) ∧
    toJsonDoc (cexFlatRs.map fun t => (t.1.name, t.2)) =
      some (cexFlatRs.map fun t => (t.1.name, (toJsonVal t.2).getD VNone)) ∧
    fromDict [] false "Flat" (cexFlatRs.map fun t => t.1)
        (cexFlatRs.map fun t => (t.1.name, (toJsonVal t.2).getD VNone)) =
      .ok (VInst "Flat" (cexFlatRs.map fun t => (t.1.name, t.2))) :=
  have h := claim1_roundtrip_amended [] false "Flat" cexFlatRs
    (by decide)
    rfl
    (by intro t ht; fin_cases ht <;> rfl)
    (by
      intro t ht
      fin_cases ht <;> exact ⟨fun hx => Option.noConfusion hx, rfl⟩)
  ⟨rfl, h.1, h.2.1, h.2.2⟩

/-!  Fuel accounting for the schema generator: the Python recursion of
`get_schema_for_type` terminates because every cycle must pass through
an unprocessed `Kobject` class and the `processed` set only grows.  The
size functions below measure the declared annotations; `unproc` counts
the declared classes not yet processed. -/

mutual

/-- Structural size of an annotation (class references count 2: the
reference step plus its object-schema step). -/
def tySize : Ty → Nat
  | tList args => 1 + tyListSize args
  | tTuple args => 1 + tyListSize args
  | tUnion args => 1 + tyListSize args
  | tDict k w => 1 + tySize k + tySize w
  | tRec _ => 2
  | _ => 1
termination_by structural t => t

/-- Size of an annotation list, one extra unit per element. -/
def tyListSize : List Ty → Nat
  | [] => 0
  | t :: ts => 1 + tySize t + tyListSize ts
termination_by structural ts => ts

end

/-- Size of a field map, one extra unit per field. -/
def fmSize : List FieldMeta → Nat
  | [] => 0
  | f :: rest => 1 + tySize f.ann + fmSize rest

/-- Size of a declared class environment. -/
def envSize : Env → Nat
  | [] => 0
  | (_, fm) :: rest => 1 + fmSize fm + envSize rest

/-- Strict upper bound on any declared field map's size. -/
def envBound (env : Env) : Nat := 1 + envSize env

/-- The fuel an object-schema expansion of class `n` may consume beyond
its own step. -/
def gosSize (env : Env) (n : String) : Nat :=
  match envLookup env n with
  | some fm => fmSize fm
  | none => 0

/-- How many declared classes are not yet in the processed set. -/
def unproc (env : Env) (ps : List String) : Nat :=
  (env.map Prod.fst).countP fun n => !ps.contains n

/-- Fuel sufficient for generating the schema of any declared class of
the environment. -/
def suffFuel (env : Env) : Nat :=
  envSize env + env.length * envBound env

theorem tySize_pos (t : Ty) : 1 ≤ tySize t := by
  cases t <;> (simp only [tySize]; omega)

theorem tySize_mem_le (t : Ty) :
    ∀ args : List Ty, t ∈ args → tySize t ≤ tyListSize args := by
  intro args
  induction args with
  | nil => intro h; cases h
  | cons a ts ih =>
    intro h
    simp only [tyListSize]
    rcases List.mem_cons.mp h with rfl | hm
    · omega
    · have := ih hm; omega

theorem envLookup_mem (env : Env) (n : String) (fm : List FieldMeta)
    (h : envLookup env n = some fm) : n ∈ env.map Prod.fst := by
  induction env with
  | nil => cases h
  | cons p rest ih =>
    rcases p with ⟨m, gm⟩
    rw [envLookup] at h
    by_cases hm : (m == n) = true
    · simp only [List.map_cons, List.mem_cons]
      exact Or.inl (eq_of_beq hm).symm
    · rw [if_neg hm] at h
      exact List.mem_cons_of_mem m (ih h)

theorem envLookup_size (env : Env) (n : String) (fm : List FieldMeta)
    (h : envLookup env n = some fm) : 1 + fmSize fm ≤ envSize env := by
  induction env with
  | nil => cases h
  | cons p rest ih =>
    rcases p with ⟨m, gm⟩
    rw [envLookup] at h
    by_cases hm : (m == n) = true
    · rw [if_pos hm] at h
      injection h with h
      subst h
      simp only [envSize]
      omega
    · rw [if_neg hm] at h
      have := ih h
      simp only [envSize]
      omega

theorem unproc_append_le (env : Env) (ps ext : List String) :
    unproc env (ps ++ ext) ≤ unproc env ps := by
  apply List.countP_mono_left
  intro a _ h
  have h2 : ¬ a ∈ ps ++ ext := by simpa using h
  simpa using fun hm => h2 (List.mem_append_left ext hm)

theorem countP_append_lt (ps : List String) (n : String) (hnp : ¬ n ∈ ps) :
    ∀ l : List String, n ∈ l →
      l.countP (fun m => !(ps ++ [n]).contains m) <
        l.countP fun m => !ps.contains m := by
  intro l
  induction l with
  | nil => intro h; cases h
  | cons a t ih =>
    intro h
    rw [List.countP_cons, List.countP_cons]
    rcases List.mem_cons.mp h with rfl | hm
    · have hp1 : (!(ps ++ [n]).contains n) = false := by
        simp
      have hp2 : (!ps.contains n) = true := by simpa using hnp
      rw [hp1, hp2]
      have e1 : (if (false = true) then (1 : Nat) else 0) = 0 := rfl
      have e2 : (if (true = true) then (1 : Nat) else 0) = 1 := rfl
      rw [e1, e2]
      have hle : t.countP (fun m => !(ps ++ [n]).contains m) ≤
          t.countP fun m => !ps.contains m := by
        apply List.countP_mono_left
        intro b _ hb
        have hb2 : ¬ b ∈ ps ++ [n] := by simpa using hb
        simpa using fun hmm => hb2 (List.mem_append_left [n] hmm)
      omega
    · have hlt := ih hm
      have hcmp : (if (!(ps ++ [n]).contains a) = true then 1 else 0) ≤
          (if (!ps.contains a) = true then 1 else 0) := by
        by_cases hc : (!(ps ++ [n]).contains a) = true
        · have hc3 : ¬ a ∈ ps ++ [n] := by simpa using hc
          have hc2 : (!ps.contains a) = true := by
            simpa using fun hmm => hc3 (List.mem_append_left [n] hmm)
          rw [if_pos hc, if_pos hc2]
        · rw [if_neg hc]
          omega
      omega

theorem unproc_append_lt (env : Env) (ps : List String) (n : String)
    (hmem : n ∈ env.map Prod.fst) (hnp : ¬ n ∈ ps) :
    unproc env (ps ++ [n]) < unproc env ps := by
  rw [unproc, unproc]
  exact countP_append_lt ps n hnp (env.map Prod.fst) hmem

/-- The relation between the generator state at entry and at exit of
any schema-generation call: `processed` is extended by a duplicate-free
block of previously unprocessed classes, and `defs` gains exactly one
entry per class of that block. -/
def GenExt (st st2 : GenState) : Prop :=
  ∃ extP extD,
    st2.processed = st.processed ++ extP ∧ st2.defs = st.defs ++ extD ∧
    (extD.map Prod.fst).Perm extP ∧ extP.Nodup ∧
    ∀ m ∈ extP, ¬ m ∈ st.processed

/-- State sanity: `processed` is duplicate-free and every `defs` key
has been processed. -/
def GenInv (st : GenState) : Prop :=
  st.processed.Nodup ∧ ∀ k ∈ st.defs.map Prod.fst, k ∈ st.processed

theorem genExt_refl (st : GenState) : GenExt st st :=
  ⟨[], [], by simp, by simp, by simp, List.nodup_nil, by simp⟩

theorem genExt_trans {a b c : GenState} (h1 : GenExt a b) (h2 : GenExt b c) :
    GenExt a c := by
  obtain ⟨p1, d1, hp1, hd1, hperm1, hnd1, hdis1⟩ := h1
  obtain ⟨p2, d2, hp2, hd2, hperm2, hnd2, hdis2⟩ := h2
  refine ⟨p1 ++ p2, d1 ++ d2, ?_, ?_, ?_, ?_, ?_⟩
  · rw [hp2, hp1, List.append_assoc]
  · rw [hd2, hd1, List.append_assoc]
  · rw [List.map_append]
    exact hperm1.append hperm2
  · rw [List.nodup_append]
    refine ⟨hnd1, hnd2, ?_⟩
    intro x hx1 hx2
    exact hdis2 x hx2 (hp1 ▸ List.mem_append_right a.processed hx1)
  · intro m hm
    rcases List.mem_append.mp hm with hm1 | hm2
    · exact hdis1 m hm1
    · intro hma
      exact hdis2 m hm2 (hp1 ▸ List.mem_append_left p1 hma)

theorem genInv_ext {a b : GenState} (hinv : GenInv a) (hext : GenExt a b) :
    GenInv b := by
  obtain ⟨p, d, hp, hd, hperm, hnd, hdis⟩ := hext
  constructor
  · rw [hp, List.nodup_append]
    exact ⟨hinv.1, hnd, fun x hx1 hx2 => hdis x hx2 hx1⟩
  · intro k hk
    rw [hd, List.map_append] at hk
    rw [hp]
    rcases List.mem_append.mp hk with h1 | h2
    · exact List.mem_append_left p (hinv.2 k h1)
    · exact List.mem_append_right a.processed (hperm.mem_iff.mp h2)

theorem unproc_mono_ext (env : Env) {a b : GenState} (h : GenExt a b) :
    unproc env b.processed ≤ unproc env a.processed := by
  obtain ⟨p, d, hp, _, _, _, _⟩ := h
  rw [hp]
  exact unproc_append_le env a.processed p

/-- `defs[k] = v` on a `$defs` table lacking `k` appends the entry. -/
theorem insertAssocJ_fresh (d : List (String × JSch)) (k : String) (v : JSch)
    (h : ¬ k ∈ d.map Prod.fst) :
    insertAssocJ d k v = d ++ [(k, v)] := by
  induction d with
  | nil => rfl
  | cons p rest ih =>
    rcases p with ⟨a, w⟩
    simp only [List.map_cons, List.mem_cons] at h
    have h1 : (a == k) = false :=
      beq_eq_false_iff_ne.mpr fun he => h (Or.inl he.symm)
    rw [insertAssocJ, h1]
    simp only [Bool.false_eq_true, if_false]
    rw [ih fun hm => h (Or.inr hm)]
    rfl

/-- `get_schema_for_type` on an already processed class reference: only
a `$ref` node, state untouched (schema.py 259-262). -/
theorem gsftRecHit (env : Env) (sreg : SchemaReg) (fuel : Nat) (n : String)
    (st : GenState)
    (hres : (if isClassTy (tRec n) then resolverLookup sreg (tRec n)
      else none) = none)
    (hp : st.processed.contains n = true) :
    getSchemaForType env sreg (Nat.succ fuel) (tRec n) st =
      some (refSchema n, st) := by
  rw [getSchemaForType, hres]
  show (if st.processed.contains n then some (refSchema n, st)
    else
      match generateObjectSchema env sreg fuel n
          ⟨st.defs, st.processed ++ [n]⟩ with
      | none => none
      | some (nested, st2) =>
          some (refSchema n, ⟨insertAssocJ st2.defs n nested, st2.processed⟩)) =
    some (refSchema n, st)
  rw [if_pos hp]

/-- `get_schema_for_type` on an unprocessed class reference: mark it
processed, expand its object schema, store it in `defs`, return the
`$ref` (schema.py 251-262). -/
theorem gsftRecNew (env : Env) (sreg : SchemaReg) (fuel : Nat) (n : String)
    (st : GenState)
    (hres : (if isClassTy (tRec n) then resolverLookup sreg (tRec n)
      else none) = none)
    (hp : st.processed.contains n = false) (nested : JSch) (st2 : GenState)
    (hgos : generateObjectSchema env sreg fuel n
      ⟨st.defs, st.processed ++ [n]⟩ = some (nested, st2)) :
    getSchemaForType env sreg (Nat.succ fuel) (tRec n) st =
      some (refSchema n, ⟨insertAssocJ st2.defs n nested, st2.processed⟩) := by
  rw [getSchemaForType, hres]
  show (if st.processed.contains n then some (refSchema n, st)
    else
      match generateObjectSchema env sreg fuel n
          ⟨st.defs, st.processed ++ [n]⟩ with
      | none => none
      | some (nested, st2) =>
          some (refSchema n, ⟨insertAssocJ st2.defs n nested, st2.processed⟩)) =
    some (refSchema n, ⟨insertAssocJ st2.defs n nested, st2.processed⟩)
  rw [if_neg (by rw [hp]; exact fun hx => Bool.noConfusion hx), hgos]

/-- `get_schema_for_type` on a union that is not a single-inner
`Optional`: an `anyOf` over all alternatives (schema.py 264-276). -/
theorem gsftUnionAll (env : Env) (sreg : SchemaReg) (fuel : Nat)
    (args : List Ty) (st : GenState) (schemas : List JSch) (st2 : GenState)
    (hc : ((args.filter fun a => !(a == tNone)).length == args.length ||
        !((args.filter fun a => !(a == tNone)).length == 1)) = true)
    (hsl : schemaList env sreg fuel args st = some (schemas, st2)) :
    getSchemaForType env sreg (Nat.succ fuel) (tUnion args) st =
      some (jobj [("anyOf", jarr schemas)], st2) := by
  rw [getSchemaForType]
  show (if (args.filter fun a => !(a == tNone)).length == args.length ||
        !((args.filter fun a => !(a == tNone)).length == 1) then
      match schemaList env sreg fuel args st with
      | none => none
      | some (schemas, st2) => some (jobj [("anyOf", jarr schemas)], st2)
    else
      match args.filter fun a => !(a == tNone) with
      | [inner] =>
        match getSchemaForType env sreg fuel inner st with
        | none => none
        | some (innerSch, st2) =>
            some (jobj
              [("anyOf", jarr [innerSch, jobj [("type", jstr "null")]])], st2)
      | _ => none) =
    some (jobj [("anyOf", jarr schemas)], st2)
  rw [if_pos hc, hsl]

/-- `get_schema_for_type` on `Optional[inner]`: `anyOf[inner, null]`
(schema.py 266-273). -/
theorem gsftUnionOpt (env : Env) (sreg : SchemaReg) (fuel : Nat)
    (args : List Ty) (st : GenState)
    (hc : ((args.filter fun a => !(a == tNone)).length == args.length ||
        !((args.filter fun a => !(a == tNone)).length == 1)) = false)
    (inner : Ty) (hfl : (args.filter fun a => !(a == tNone)) = [inner])
    (isch : JSch) (st2 : GenState)
    (hgs : getSchemaForType env sreg fuel inner st = some (isch, st2)) :
    getSchemaForType env sreg (Nat.succ fuel) (tUnion args) st =
      some (jobj [("anyOf", jarr [isch, jobj [("type", jstr "null")]])],
        st2) := by
  rw [getSchemaForType]
  show (if (args.filter fun a => !(a == tNone)).length == args.length ||
        !((args.filter fun a => !(a == tNone)).length == 1) then
      match schemaList env sreg fuel args st with
      | none => none
      | some (schemas, st2) => some (jobj [("anyOf", jarr schemas)], st2)
    else
      match args.filter fun a => !(a == tNone) with
      | [inner] =>
        match getSchemaForType env sreg fuel inner st with
        | none => none
        | some (innerSch, st2) =>
            some (jobj
              [("anyOf", jarr [innerSch, jobj [("type", jstr "null")]])], st2)
      | _ => none) =
    some (jobj [("anyOf", jarr [isch, jobj [("type", jstr "null")]])], st2)
  rw [if_neg (by rw [hc]; exact fun hx => Bool.noConfusion hx), hfl]
  show (match getSchemaForType env sreg fuel inner st with
    | none => none
    | some (innerSch, st2) =>
        some (jobj
          [("anyOf", jarr [innerSch, jobj [("type", jstr "null")]])], st2)) =
    some (jobj [("anyOf", jarr [isch, jobj [("type", jstr "null")]])], st2)
  rw [hgs]

/-- `get_schema_for_type` on a parameterized list: an `array` schema
with the first argument's schema as `items` (schema.py 290-296). -/
theorem gsftListCons (env : Env) (sreg : SchemaReg) (fuel : Nat) (a : Ty)
    (r : List Ty) (st : GenState) (items : JSch) (st2 : GenState)
    (hgs : getSchemaForType env sreg fuel a st = some (items, st2)) :
    getSchemaForType env sreg (Nat.succ fuel) (tList (a :: r)) st =
      some (jobj [("type", jstr "array"), ("items", items)], st2) := by
  rw [getSchemaForType]
  show (match getSchemaForType env sreg fuel a st with
    | none => none
    | some (items, st2) =>
        some (jobj [("type", jstr "array"), ("items", items)], st2)) =
    some (jobj [("type", jstr "array"), ("items", items)], st2)
  rw [hgs]

/-- `get_schema_for_type` on `Tuple[a, ...]` (ellipsis form): a plain
`array` of `a` (schema.py 298-305). -/
theorem gsftTupleEll (env : Env) (sreg : SchemaReg) (fuel : Nat) (a : Ty)
    (r : List Ty) (st : GenState) (items : JSch) (st2 : GenState)
    (hc : (r.length == 1 && (r.headD tNone == tEllipsis)) = true)
    (hgs : getSchemaForType env sreg fuel a st = some (items, st2)) :
    getSchemaForType env sreg (Nat.succ fuel) (tTuple (a :: r)) st =
      some (jobj [("type", jstr "array"), ("items", items)], st2) := by
  rw [getSchemaForType]
  show (if r.length == 1 && (r.headD tNone == tEllipsis) then
      match getSchemaForType env sreg fuel a st with
      | none => none
      | some (items, st2) =>
          some (jobj [("type", jstr "array"), ("items", items)], st2)
    else
      match schemaList env sreg fuel (a :: r) st with
      | none => none
      | some (schemas, st2) =>
          some (jobj
            [("type", jstr "array"), ("prefixItems", jarr schemas),
             ("minItems", jnum (Int.ofNat (a :: r).length)),
             ("maxItems", jnum (Int.ofNat (a :: r).length))], st2)) =
    some (jobj [("type", jstr "array"), ("items", items)], st2)
  rw [if_pos hc, hgs]

/-- `get_schema_for_type` on a fixed tuple: `prefixItems` with exact
`minItems`/`maxItems` (schema.py 298-316). -/
theorem gsftTupleFixed (env : Env) (sreg : SchemaReg) (fuel : Nat) (a : Ty)
    (r : List Ty) (st : GenState) (schemas : List JSch) (st2 : GenState)
    (hc : (r.length == 1 && (r.headD tNone == tEllipsis)) = false)
    (hsl : schemaList env sreg fuel (a :: r) st = some (schemas, st2)) :
    getSchemaForType env sreg (Nat.succ fuel) (tTuple (a :: r)) st =
      some (jobj
        [("type", jstr "array"), ("prefixItems", jarr schemas),
         ("minItems", jnum (Int.ofNat (a :: r).length)),
         ("maxItems", jnum (Int.ofNat (a :: r).length))], st2) := by
  rw [getSchemaForType]
  show (if r.length == 1 && (r.headD tNone == tEllipsis) then
      match getSchemaForType env sreg fuel a st with
      | none => none
      | some (items, st2) =>
          some (jobj [("type", jstr "array"), ("items", items)], st2)
    else
      match schemaList env sreg fuel (a :: r) st with
      | none => none
      | some (schemas, st2) =>
          some (jobj
            [("type", jstr "array"), ("prefixItems", jarr schemas),
             ("minItems", jnum (Int.ofNat (a :: r).length)),
             ("maxItems", jnum (Int.ofNat (a :: r).length))], st2)) =
    some (jobj
      [("type", jstr "array"), ("prefixItems", jarr schemas),
       ("minItems", jnum (Int.ofNat (a :: r).length)),
       ("maxItems", jnum (Int.ofNat (a :: r).length))], st2)
  rw [if_neg (by rw [hc]; exact fun hx => Bool.noConfusion hx), hsl]

/-- `get_schema_for_type` on a parameterized dict: an `object` schema
with the value schema as `additionalProperties` (schema.py 278-288). -/
theorem gsftDictStep (env : Env) (sreg : SchemaReg) (fuel : Nat) (k w : Ty)
    (st : GenState) (valueSch : JSch) (st2 : GenState)
    (hgs : getSchemaForType env sreg fuel w st = some (valueSch, st2)) :
    getSchemaForType env sreg (Nat.succ fuel) (tDict k w) st =
      some (jobj [("type", jstr "object"),
        ("additionalProperties", valueSch)], st2) := by
  rw [getSchemaForType]
  show (match getSchemaForType env sreg fuel w st with
    | none => none
    | some (valueSch, st2) =>
        some (jobj [("type", jstr "object"),
          ("additionalProperties", valueSch)], st2)) =
    some (jobj [("type", jstr "object"),
      ("additionalProperties", valueSch)], st2)
  rw [hgs]

/-- Totality of the schema generator under sufficient fuel, with the
state-extension invariant: every call succeeds (the Python recursion
terminates), appends a duplicate-free block of previously unprocessed
classes to `processed`, and appends exactly one `defs` entry per class
of that block. -/
theorem schemaGenTotal (env : Env) (sreg : SchemaReg) : ∀ fuel : Nat,
    (∀ (t : Ty) (st : GenState), GenInv st →
      tySize t + unproc env st.processed * envBound env ≤ fuel →
      ∃ sch st2, getSchemaForType env sreg fuel t st = some (sch, st2) ∧
        GenExt st st2) ∧
    (∀ (ts : List Ty) (st : GenState), GenInv st →
      tyListSize ts + unproc env st.processed * envBound env ≤ fuel →
      ∃ schs st2, schemaList env sreg fuel ts st = some (schs, st2) ∧
        GenExt st st2) ∧
    (∀ (fm : List FieldMeta) (st : GenState), GenInv st →
      fmSize fm + unproc env st.processed * envBound env ≤ fuel →
      ∃ props reqs st2, schemaFields env sreg fuel fm st =
        some (props, reqs, st2) ∧ GenExt st st2) ∧
    (∀ (n : String) (st : GenState), GenInv st →
      1 + gosSize env n + unproc env st.processed * envBound env ≤ fuel →
      ∃ sch st2, generateObjectSchema env sreg fuel n st = some (sch, st2) ∧
        GenExt st st2) := by
  intro fuel
  induction fuel with
  | zero =>
    refine ⟨?_, ?_, ?_, ?_⟩
    · intro t st _ hle
      exact absurd hle (by have := tySize_pos t; omega)
    · intro ts st _ hle
      cases ts with
      | nil => exact ⟨[], st, rfl, genExt_refl st⟩
      | cons t ts2 =>
        exact absurd hle
          (by simp only [tyListSize]; have := tySize_pos t; omega)
    · intro fm st _ hle
      cases fm with
      | nil => exact ⟨[], [], st, rfl, genExt_refl st⟩
      | cons f rest =>
        exact absurd hle
          (by simp only [fmSize]; have := tySize_pos f.ann; omega)
    · intro n st _ hle
      exact absurd hle (by omega)
  | succ fuel ih =>
    obtain ⟨iha, ihb, ihc, ihd⟩ := ih
    refine ⟨?_, ?_, ?_, ?_⟩
    · intro t st hinv hle
      rcases hres : (if isClassTy t then resolverLookup sreg t else none)
        with _ | sch
      · cases t with
        | tNone =>
          exact ⟨jobj [("type", jstr "null")], st,
            by rw [getSchemaForType, hres] <;>
              first
                | rfl
                | (intros; exact Ty.noConfusion (by assumption)),
            genExt_refl st⟩
        | tBool =>
          exact ⟨jobj [("type", jstr "boolean")], st,
            by rw [getSchemaForType, hres] <;>
              first
                | rfl
                | (intros; exact Ty.noConfusion (by assumption)),
            genExt_refl st⟩
        | tInt =>
          exact ⟨jobj [("type", jstr "integer")], st,
            by rw [getSchemaForType, hres] <;>
              first
                | rfl
                | (intros; exact Ty.noConfusion (by assumption)),
            genExt_refl st⟩
        | tStr =>
          exact ⟨jobj [("type", jstr "string")], st,
            by rw [getSchemaForType, hres] <;>
              first
                | rfl
                | (intros; exact Ty.noConfusion (by assumption)),
            genExt_refl st⟩
        | tAny =>
          exact ⟨jobj [], st,
            by rw [getSchemaForType, hres] <;>
              first
                | rfl
                | (intros; exact Ty.noConfusion (by assumption)),
            genExt_refl st⟩
        | tEllipsis =>
          exact ⟨jobj [], st,
            by rw [getSchemaForType, hres] <;>
              first
                | rfl
                | (intros; exact Ty.noConfusion (by assumption)),
            genExt_refl st⟩
        | tKobject =>
          exact ⟨jobj [], st,
            by rw [getSchemaForType, hres] <;>
              first
                | rfl
                | (intros; exact Ty.noConfusion (by assumption)),
            genExt_refl st⟩
        | tUnionSF =>
          exact ⟨jobj [], st,
            by rw [getSchemaForType, hres] <;>
              first
                | rfl
                | (intros; exact Ty.noConfusion (by assumption)),
            genExt_refl st⟩
        | tListBare =>
          exact ⟨jobj [("type", jstr "array")], st,
            by rw [getSchemaForType, hres] <;>
              first
                | rfl
                | (intros; exact Ty.noConfusion (by assumption)),
            genExt_refl st⟩
        | tTupleBare =>
          exact ⟨jobj [("type", jstr "array")], st,
            by rw [getSchemaForType, hres] <;>
              first
                | rfl
                | (intros; exact Ty.noConfusion (by assumption)),
            genExt_refl st⟩
        | tDictBare =>
          exact ⟨jobj [("type", jstr "object")], st,
            by rw [getSchemaForType, hres] <;>
              first
                | rfl
                | (intros; exact Ty.noConfusion (by assumption)),
            genExt_refl st⟩
        | tClass m =>
          exact ⟨jobj [], st,
            by rw [getSchemaForType, hres] <;>
              first
                | rfl
                | (intros; exact Ty.noConfusion (by assumption)),
            genExt_refl st⟩
        | tRec n =>
          cases hp : st.processed.contains n with
          | true =>
            exact ⟨_, st, gsftRecHit env sreg fuel n st hres hp,
              genExt_refl st⟩
          | false =>
            have hnp : ¬ n ∈ st.processed := by simpa using hp
            have hinv1 : GenInv ⟨st.defs, st.processed ++ [n]⟩ := by
              constructor
              · rw [List.nodup_append]
                refine ⟨hinv.1, List.nodup_singleton n, ?_⟩
                intro x hx hx2
                rw [List.mem_singleton] at hx2
                exact hnp (hx2 ▸ hx)
              · intro k hk
                exact List.mem_append_left [n] (hinv.2 k hk)
            have hu1 : unproc env (st.processed ++ [n]) ≤
                unproc env st.processed :=
              unproc_append_le env st.processed [n]
            have hbound : 1 + gosSize env n +
                unproc env (st.processed ++ [n]) * envBound env ≤ fuel := by
              cases he : envLookup env n with
              | none =>
                have hg0 : gosSize env n = 0 := by simp only [gosSize, he]
                have hm := Nat.mul_le_mul_right (envBound env) hu1
                simp only [tySize] at hle
                omega
              | some fm =>
                have hmem := envLookup_mem env n fm he
                have hlt := unproc_append_lt env st.processed n hmem hnp
                have hsz := envLookup_size env n fm he
                have hg0 : gosSize env n = fmSize fm := by
                  simp only [gosSize, he]
                have hm : (unproc env (st.processed ++ [n]) + 1) *
                    envBound env ≤
                    unproc env st.processed * envBound env :=
                  Nat.mul_le_mul_right (envBound env) hlt
                rw [Nat.succ_mul] at hm
                have hbB : envBound env = 1 + envSize env := rfl
                simp only [tySize] at hle
                omega
            obtain ⟨nested, st2, hgos, hext⟩ :=
              ihd n ⟨st.defs, st.processed ++ [n]⟩ hinv1 hbound
            refine ⟨refSchema n,
              ⟨insertAssocJ st2.defs n nested, st2.processed⟩,
              gsftRecNew env sreg fuel n st hres hp nested st2 hgos, ?_⟩
            obtain ⟨p2, d2, hp2e, hd2e, hperm2, hnd2, hdis2⟩ := hext
            have hnmem2 : n ∈ st.processed ++ [n] :=
              List.mem_append_right st.processed (List.mem_singleton.mpr rfl)
            have hkfresh : ¬ n ∈ st2.defs.map Prod.fst := by
              intro hk
              rw [hd2e, List.map_append] at hk
              rcases List.mem_append.mp hk with h1 | h2
              · exact hnp (hinv.2 n h1)
              · exact hdis2 n (hperm2.mem_iff.mp h2) hnmem2
            refine ⟨[n] ++ p2, d2 ++ [(n, nested)], ?_, ?_, ?_, ?_, ?_⟩
            · show st2.processed = st.processed ++ ([n] ++ p2)
              rw [hp2e, List.append_assoc]
            · show insertAssocJ st2.defs n nested =
                st.defs ++ (d2 ++ [(n, nested)])
              rw [insertAssocJ_fresh st2.defs n nested hkfresh, hd2e,
                List.append_assoc]
            · rw [List.map_append]
              refine List.Perm.trans List.perm_append_comm ?_
              show (n :: d2.map Prod.fst).Perm ([n] ++ p2)
              exact hperm2.cons n
            · show (n :: p2).Nodup
              exact List.nodup_cons.mpr
                ⟨fun hn2 => hdis2 n hn2 hnmem2, hnd2⟩
            · intro m hm
              rcases List.mem_append.mp hm with h1 | h2
              · rw [List.mem_singleton] at h1
                exact fun hms => hnp (h1 ▸ hms)
              · intro hms
                exact hdis2 m h2 (List.mem_append_left [n] hms)
        | tList args =>
          cases args with
          | nil =>
            exact ⟨jobj [("type", jstr "array")], st,
            by rw [getSchemaForType, hres] <;>
              first
                | rfl
                | (intros; exact Ty.noConfusion (by assumption)),
            genExt_refl st⟩
          | cons a r =>
            have hsz : tySize a +
                unproc env st.processed * envBound env ≤ fuel := by
              simp only [tySize, tyListSize] at hle
              omega
            obtain ⟨items, st2, hgs, hext⟩ := iha a st hinv hsz
            exact ⟨_, st2, gsftListCons env sreg fuel a r st items st2 hgs,
              hext⟩
        | tTuple args =>
          cases args with
          | nil =>
            exact ⟨jobj [("type", jstr "array")], st,
            by rw [getSchemaForType, hres] <;>
              first
                | rfl
                | (intros; exact Ty.noConfusion (by assumption)),
            genExt_refl st⟩
          | cons a r =>
            cases hc : (r.length == 1 && (r.headD tNone == tEllipsis)) with
            | true =>
              have hsz : tySize a +
                  unproc env st.processed * envBound env ≤ fuel := by
                simp only [tySize, tyListSize] at hle
                omega
              obtain ⟨items, st2, hgs, hext⟩ := iha a st hinv hsz
              exact ⟨_, st2,
                gsftTupleEll env sreg fuel a r st items st2 hc hgs, hext⟩
            | false =>
              have hsz : tyListSize (a :: r) +
                  unproc env st.processed * envBound env ≤ fuel := by
                simp only [tySize] at hle
                omega
              obtain ⟨schemas, st2, hsl, hext⟩ := ihb (a :: r) st hinv hsz
              exact ⟨_, st2,
                gsftTupleFixed env sreg fuel a r st schemas st2 hc hsl, hext⟩
        | tDict k w =>
          have hsz : tySize w +
              unproc env st.processed * envBound env ≤ fuel := by
            simp only [tySize] at hle
            omega
          obtain ⟨vs, st2, hgs, hext⟩ := iha w st hinv hsz
          exact ⟨_, st2, gsftDictStep env sreg fuel k w st vs st2 hgs, hext⟩
        | tUnion args =>
          cases hc : ((args.filter fun a => !(a == tNone)).length ==
              args.length ||
              !((args.filter fun a => !(a == tNone)).length == 1)) with
          | true =>
            have hsz : tyListSize args +
                unproc env st.processed * envBound env ≤ fuel := by
              simp only [tySize] at hle
              omega
            obtain ⟨schemas, st2, hsl, hext⟩ := ihb args st hinv hsz
            exact ⟨_, st2,
              gsftUnionAll env sreg fuel args st schemas st2 hc hsl, hext⟩
          | false =>
            have hb2 : ((args.filter fun a => !(a == tNone)).length == 1) =
                true := by
              cases hbb : ((args.filter fun a => !(a == tNone)).length == 1)
                with
              | true => rfl
              | false =>
                rw [hbb] at hc
                simp at hc
            have hlen : (args.filter fun a => !(a == tNone)).length = 1 :=
              eq_of_beq hb2
            rcases hfl : args.filter fun a => !(a == tNone)
              with _ | ⟨inner, r2⟩
            · rw [hfl] at hlen
              simp at hlen
            · rcases r2 with _ | ⟨x, r3⟩
              · have hmem : inner ∈ args := by
                  have h1 : inner ∈ args.filter fun a => !(a == tNone) := by
                    rw [hfl]
                    exact List.mem_cons_self inner []
                  exact (List.mem_filter.mp h1).1
                have hsz : tySize inner +
                    unproc env st.processed * envBound env ≤ fuel := by
                  have h2 := tySize_mem_le inner args hmem
                  simp only [tySize] at hle
                  omega
                obtain ⟨isch, st2, hgs, hext⟩ := iha inner st hinv hsz
                exact ⟨_, st2,
                  gsftUnionOpt env sreg fuel args st hc inner hfl isch st2
                    hgs, hext⟩
              · rw [hfl] at hlen
                simp at hlen
      · refine ⟨sch, st, ?_, genExt_refl st⟩
        cases t <;>
          first
            | (rw [getSchemaForType, hres] <;>
                first
                  | rfl
                  | (intros; exact Ty.noConfusion (by assumption)))
            | (rename_i args
               cases args <;>
                 (rw [getSchemaForType, hres] <;>
                   first
                     | rfl
                     | (intros; exact Ty.noConfusion (by assumption))))
    · intro ts st hinv hle
      cases ts with
      | nil => exact ⟨[], st, rfl, genExt_refl st⟩
      | cons t ts2 =>
        have hsz1 : tySize t + unproc env st.processed * envBound env ≤
            fuel := by
          simp only [tyListSize] at hle
          omega
        obtain ⟨sch, st1, hg, hext1⟩ := iha t st hinv hsz1
        have hu1 := unproc_mono_ext env hext1
        have hsz2 : tyListSize ts2 +
            unproc env st1.processed * envBound env ≤ fuel := by
          have hm := Nat.mul_le_mul_right (envBound env) hu1
          simp only [tyListSize] at hle
          omega
        obtain ⟨schs, st2, hsl, hext2⟩ :=
          ihb ts2 st1 (genInv_ext hinv hext1) hsz2
        refine ⟨sch :: schs, st2, ?_, genExt_trans hext1 hext2⟩
        show (match getSchemaForType env sreg fuel t st with
          | none => none
          | some (sch2, st1b) =>
            match schemaList env sreg fuel ts2 st1b with
            | none => none
            | some (schs2, st3) => some (sch2 :: schs2, st3)) =
          some (sch :: schs, st2)
        rw [hg]
        show (match schemaList env sreg fuel ts2 st1 with
          | none => none
          | some (schs2, st3) => some (sch :: schs2, st3)) =
            some (sch :: schs, st2)
        rw [hsl]
    · intro fm st hinv hle
      cases fm with
      | nil => exact ⟨[], [], st, rfl, genExt_refl st⟩
      | cons f rest =>
        have hsz1 : tySize f.ann +
            unproc env st.processed * envBound env ≤ fuel := by
          simp only [fmSize] at hle
          omega
        obtain ⟨propSchema, st1, hg, hext1⟩ := iha f.ann st hinv hsz1
        have hu1 := unproc_mono_ext env hext1
        have hsz2 : fmSize rest +
            unproc env st1.processed * envBound env ≤ fuel := by
          have hm := Nat.mul_le_mul_right (envBound env) hu1
          simp only [fmSize] at hle
          omega
        obtain ⟨props, reqs, st2, hsf, hext2⟩ :=
          ihc rest st1 (genInv_ext hinv hext1) hsz2
        refine ⟨(f.name,
            if f.have_default_value then
              match f.default with
              | some d =>
                  if defaultJsonable d then
                    jobjInsert propSchema "default" (valueToJSch d)
                  else propSchema
              | none => propSchema
            else propSchema) :: props,
          (if f.have_default_value then reqs else f.name :: reqs), st2, ?_,
          genExt_trans hext1 hext2⟩
        show (match getSchemaForType env sreg fuel f.ann st with
          | none => none
          | some (propSchemab, st1b) =>
            match schemaFields env sreg fuel rest st1b with
            | none => none
            | some (props2, reqs2, st3) =>
                some ((f.name,
                  if f.have_default_value then
                    match f.default with
                    | some d =>
                        if defaultJsonable d then
                          jobjInsert propSchemab "default" (valueToJSch d)
                        else propSchemab
                    | none => propSchemab
                  else propSchemab) :: props2,
                  (if f.have_default_value then reqs2 else f.name :: reqs2),
                  st3)) = _
        rw [hg]
        show (match schemaFields env sreg fuel rest st1 with
          | none => none
          | some (props2, reqs2, st3) =>
              some ((f.name,
                if f.have_default_value then
                  match f.default with
                  | some d =>
                      if defaultJsonable d then
                        jobjInsert propSchema "default" (valueToJSch d)
                      else propSchema
                  | none => propSchema
                else propSchema) :: props2,
                (if f.have_default_value then reqs2 else f.name :: reqs2),
                st3)) = _
        rw [hsf]
    · intro n st hinv hle
      rcases he : envLookup env n with _ | fm
      · exact ⟨jobj [], st, by rw [generateObjectSchema, he],
          genExt_refl st⟩
      · have hsz : fmSize fm +
            unproc env st.processed * envBound env ≤ fuel := by
          have hg0 : gosSize env n = fmSize fm := by simp only [gosSize, he]
          omega
        obtain ⟨props, reqs, st2, hsf, hext⟩ := ihc fm st hinv hsz
        refine ⟨jobj (if reqs.isEmpty then
            [("type", jstr "object"), ("properties", jobj props),
             ("additionalProperties", jbool false)]
          else
            [("type", jstr "object"), ("properties", jobj props),
             ("additionalProperties", jbool false)] ++
              [("required", jarr (reqs.map jstr))]), st2, ?_, hext⟩
        rw [generateObjectSchema, he]
        show (match schemaFields env sreg fuel fm st with
          | none => none
          | some (props2, reqs2, st3) =>
              some (jobj (if reqs2.isEmpty then
                  [("type", jstr "object"), ("properties", jobj props2),
                   ("additionalProperties", jbool false)]
                else
                  [("type", jstr "object"), ("properties", jobj props2),
                   ("additionalProperties", jbool false)] ++
                    [("required", jarr (reqs2.map jstr))]), st3)) = _
        rw [hsf]

/-- Claim C3 (amended) — for every declared class (with the default,
empty resolver registry) schema generation terminates once given the
computable fuel bound `suffFuel` (the Python recursion needs no fuel:
this is its termination), and the emitted `$defs` table has exactly one
entry per distinct record type reached through the recursion EXCEPT the
root class: the root is pre-seeded into `processed` and therefore never
entered into `$defs`, although every occurrence of it (and every
repeated occurrence of any processed class) is rendered as a pure
`$ref` node, as the final conjunct states for every generator state;
the table is attached to the document under `"$defs"` whenever it is
non-empty. -/
theorem claim3_schema_cycle_amended (env : Env) (cname : String)
    (fm : List FieldMeta) (henv : envLookup env cname = some fm)
    (fuel : Nat) (hfuel : suffFuel env ≤ fuel) :
    (∃ sch st, generateSt env [] fuel cname = some (.ok (sch, st)) ∧
      (st.defs.map Prod.fst).Nodup ∧
      ¬ cname ∈ st.defs.map Prod.fst ∧
      (∀ k, k ∈ st.defs.map Prod.fst ↔ k ∈ st.processed ∧ k ≠ cname) ∧
      (st.defs.isEmpty = false →
        schLookup sch "$defs" = some (jobj st.defs))) ∧
    (∀ (st3 : GenState) (m : String) (f2 : Nat),
      st3.processed.contains m = true →
      getSchemaForType env [] (Nat.succ f2) (tRec m) st3 =
        some (refSchema m, st3)) := by
  constructor
  · obtain ⟨_, _, ihc, _⟩ := schemaGenTotal env [] fuel
    have hinv : GenInv ⟨[], [cname]⟩ :=
      ⟨List.nodup_singleton cname, fun k hk => absurd hk (List.not_mem_nil k)⟩
    have h1 : 1 + fmSize fm ≤ envSize env := envLookup_size env cname fm henv
    have h2 : unproc env [cname] ≤ env.length := by
      rw [unproc]
      have h3 := List.countP_le_length
        (fun n => !([cname].contains n)) (l := env.map Prod.fst)
      rw [List.length_map] at h3
      exact h3
    have h3 : unproc env [cname] * envBound env ≤
        env.length * envBound env :=
      Nat.mul_le_mul_right (envBound env) h2
    have hb : fmSize fm + unproc env [cname] * envBound env ≤ fuel := by
      have h4 : suffFuel env = envSize env + env.length * envBound env := rfl
      omega
    obtain ⟨props, reqs, st, hsf, hext⟩ := ihc fm ⟨[], [cname]⟩ hinv hb
    obtain ⟨extP, extD, hpe, hde, hperm, hnd, hdis⟩ := hext
    rw [List.nil_append] at hde
    have hkeysperm : (st.defs.map Prod.fst).Perm extP := by
      rw [hde]
      exact hperm
    have hccname : ¬ cname ∈ extP := fun h =>
      hdis cname h (List.mem_singleton.mpr rfl)
    have heq : generateSt env [] fuel cname =
        some (.ok (jobj (if st.defs.isEmpty then
            (if reqs.isEmpty then
              [("$schema", jstr "http://json-schema.org/draft-07/schema#"),
               ("type", jstr "object"), ("properties", jobj props),
               ("additionalProperties", jbool false)]
            else
              [("$schema", jstr "http://json-schema.org/draft-07/schema#"),
               ("type", jstr "object"), ("properties", jobj props),
               ("additionalProperties", jbool false)] ++
                [("required", jarr (reqs.map jstr))])
          else
            (if reqs.isEmpty then
              [("$schema", jstr "http://json-schema.org/draft-07/schema#"),
               ("type", jstr "object"), ("properties", jobj props),
               ("additionalProperties", jbool false)]
            else
              [("$schema", jstr "http://json-schema.org/draft-07/schema#"),
               ("type", jstr "object"), ("properties", jobj props),
               ("additionalProperties", jbool false)] ++
                [("required", jarr (reqs.map jstr))]) ++
              [("$defs", jobj st.defs)]), st)) := by
      rw [generateSt, henv]
      show (match schemaFields env [] fuel fm ⟨[], [cname]⟩ with
        | none => none
        | some (props2, reqs2, st4) =>
            some (Except.ok (jobj (if st4.defs.isEmpty then
                (if reqs2.isEmpty then
                  [("$schema",
                    jstr "http://json-schema.org/draft-07/schema#"),
                   ("type", jstr "object"), ("properties", jobj props2),
                   ("additionalProperties", jbool false)]
                else
                  [("$schema",
                    jstr "http://json-schema.org/draft-07/schema#"),
                   ("type", jstr "object"), ("properties", jobj props2),
                   ("additionalProperties", jbool false)] ++
                    [("required", jarr (reqs2.map jstr))])
              else
                (if reqs2.isEmpty then
                  [("$schema",
                    jstr "http://json-schema.org/draft-07/schema#"),
                   ("type", jstr "object"), ("properties", jobj props2),
                   ("additionalProperties", jbool false)]
                else
                  [("$schema",
                    jstr "http://json-schema.org/draft-07/schema#"),
                   ("type", jstr "object"), ("properties", jobj props2),
                   ("additionalProperties", jbool false)] ++
                    [("required", jarr (reqs2.map jstr))]) ++
                  [("$defs", jobj st4.defs)]), st4))) = _
      rw [hsf]
    refine ⟨_, st, heq, ?_, ?_, ?_, ?_⟩
    · exact hkeysperm.nodup_iff.mpr hnd
    · intro hk
      exact hccname (hkeysperm.mem_iff.mp hk)
    · intro k
      rw [hkeysperm.mem_iff]
      constructor
      · intro hk
        refine ⟨?_, fun he => hccname (he ▸ hk)⟩
        rw [hpe]
        exact List.mem_append_right [cname] hk
      · rintro ⟨hk, hne⟩
        rw [hpe] at hk
        rcases List.mem_append.mp hk with hk1 | hk2
        · exact absurd (List.mem_singleton.mp hk1) hne
        · exact hk2
    · intro hie
      have e1 : (("$schema" : String) == "$defs") = false := by decide
      have e2 : (("type" : String) == "$defs") = false := by decide
      have e3 : (("properties" : String) == "$defs") = false := by decide
      have e4 : (("additionalProperties" : String) == "$defs") = false := by
        decide
      have e5 : (("required" : String) == "$defs") = false := by decide
      have e6 : (("$defs" : String) == "$defs") = true := by decide
      cases hre : reqs.isEmpty with
      | true =>
        simp only [schLookup, hie, hre, Bool.false_eq_true, if_false,
          if_true, List.cons_append, List.nil_append, List.find?, e1, e2,
          e3, e4, e6]
      | false =>
        simp only [schLookup, hie, hre, Bool.false_eq_true, if_false,
          if_true, List.cons_append, List.nil_append, List.find?, e1, e2,
          e3, e4, e5, e6]
  · intro st3 m f2 hp3
    exact gsftRecHit env [] f2 m st3 rfl hp3

/-- The mutually recursive pair of record classes of the C3 witness:
`A.b : B` and `B.a : A`. -/
def cexEnvW : Env :=
  [("A", [⟨"b", tRec "B", true, false, none⟩]),
   ("B", [⟨"a", tRec "A", true, false, none⟩])]

/-- Witness for the amended C3 at the concrete mutual cycle `A ↔ B`:
generation at the computed fuel succeeds and `$defs` holds exactly the
non-root classes of the cycle. -/
theorem claim3_schema_cycle_witness :
    envLookup cexEnvW "A" = some [⟨"b", tRec "B", true, false, none⟩] ∧
    (∃ sch st, generateSt cexEnvW [] (suffFuel cexEnvW) "A" =
        some (.ok (sch, st)) ∧
      (st.defs.map Prod.fst).Nodup ∧
      ¬ "A" ∈ st.defs.map Prod.fst ∧
      (∀ k, k ∈ st.defs.map Prod.fst ↔ k ∈ st.processed ∧ k ≠ "A") ∧
      (st.defs.isEmpty = false →
        schLookup sch "$defs" = some (jobj st.defs))) :=
  ⟨rfl, (claim3_schema_cycle_amended cexEnvW "A" _ rfl (suffFuel cexEnvW)
    (Nat.le_refl _)).1⟩

end Kobject
